import Mathlib

/-!
# swapview (Go) : shallow embedding and verified properties

The Go program `cmd/swapview/main.go` lists the swap usage of every process.
This file embeds its functions as Lean definitions and proves properties of them.

Conventions of the embedding.

* A Go `string` or `[]byte` is a finite sequence of bytes (`GoString`); a byte
  is carried as its value, a natural number below 256.
* A Go `int` is a 64-bit two's-complement integer.  Values are carried as `Int`;
  every `+`, `*` the program performs on `int` is followed by `wrap64`, and
  `strconv.Atoi` rejects numerals outside the 64-bit range.
* A `float64` is carried exactly as a dyadic rational `num / 2 ^ exp`.  The only
  float operations of the program are the conversion `float64(size)` (rounding
  to 53 significant bits, ties to even), the division by `1024.0` (exact: it
  only lowers the binary exponent, and no value here comes near underflow), the
  comparison with `1100` and the rendering by `%.1f`.
* A function result is an `Outcome`: a returned value, a returned Go `error`,
  a run-time panic, or `log.Fatalf`.
* The file system is a parameter (`ProcFS`) that gives the bytes of each file.
  `bufio.Scanner` reads lines from these bytes through a buffer of at most
  64 KiB; reading an open `smaps` file to its end meets no I/O error.
-/

namespace GoSwapview

/-! ## Go values -/

/-- Go `string` and `[]byte`: a finite sequence of bytes, each carried as its
value (a natural number below 256). -/
abbrev GoString := List Nat

/-- The bytes of an ASCII literal. -/
def ascii (s : String) : GoString := s.toList.map fun c => c.toNat

/-- Result of running a Go function: a value, a returned `error`, a run-time
panic (which aborts the program), or `log.Fatalf` (which exits the program). -/
inductive Outcome (α : Type) where
  | ok (a : α)
  | error
  | panic
  | fatal
  deriving DecidableEq, Repr

/-- Reduction of a mathematical integer to the 64-bit two's-complement range,
which is what Go's `int` arithmetic does on overflow. -/
def wrap64 (x : Int) : Int := (x + 2 ^ 63) % 2 ^ 64 - 2 ^ 63

/-- The values of Go's `int` on a 64-bit platform. -/
def InInt64 (x : Int) : Prop := -(2 ^ 63) ≤ x ∧ x < 2 ^ 63

instance (x : Int) : Decidable (InInt64 x) := by unfold InInt64; infer_instance

/-! ## `fmt` verbs -/

/-- Decimal digits of a natural number, as `%d` writes them. -/
def fmtNat (n : Nat) : GoString := (Nat.toDigits 10 n).map fun c => c.toNat

/-- The verb `%d` on an `int`. -/
def fmtInt : Int → GoString
  | Int.ofNat n => fmtNat n
  | Int.negSucc n => 0x2d :: fmtNat (n + 1)

/-- Left padding with spaces to a minimal width, as `%7d`, `%9s`, `%10s` do.
The width counts characters; every operand the program pads is ASCII, so that
is the number of bytes. -/
def padLeft (w : Nat) (s : GoString) : GoString := List.replicate (w - s.length) 0x20 ++ s

/-- The non-negative fraction `num / den` written with one digit after the
point, correctly rounded, ties to even: what `%.1f` prints for the float64
whose exact value is `num / den`. -/
def fmtF1Nat (num den : Nat) : GoString :=
  let t := 10 * num
  let q := t / den
  let r := t % den
  let q1 := if den < 2 * r ∨ (2 * r = den ∧ q % 2 = 1) then q + 1 else q
  fmtNat (q1 / 10) ++ 0x2e :: fmtNat (q1 % 10)

/-! ## float64 -/

/-- A float64 value, held exactly: `num / 2 ^ exp`. -/
structure Float64 where
  num : Int
  exp : Nat
  deriving DecidableEq, Repr

/-- Number of low bits that `float64(n)` drops from a magnitude `a`:
the least `s` with `a / 2 ^ s < 2 ^ 53`. -/
def f64Shift : (fuel a : Nat) → Nat
  | 0, _ => 0
  | fuel + 1, a => if a < 2 ^ 53 then 0 else f64Shift fuel (a / 2) + 1

/-- The integer that `float64(n)` holds: `n` rounded to 53 significant bits,
to nearest, ties to even.  It is `n` itself when `|n| ≤ 2 ^ 53`. -/
def round53 (n : Int) : Int :=
  let a := n.natAbs
  let s := f64Shift a a
  let q := a / 2 ^ s
  let r := a % 2 ^ s
  let q1 := if 2 ^ s < 2 * r ∨ (2 * r = 2 ^ s ∧ q % 2 = 1) then q + 1 else q
  n.sign * ((q1 * 2 ^ s : Nat) : Int)

/-- The conversion `float64(size)`. -/
def Float64.ofInt (n : Int) : Float64 := ⟨round53 n, 0⟩

/-- The operation `left /= 1024.0`. -/
def Float64.div1024 (x : Float64) : Float64 := ⟨x.num, x.exp + 10⟩

/-- The comparison `x > c` against an integer constant. -/
def Float64.gtInt (x : Float64) (c : Int) : Bool := decide (c * 2 ^ x.exp < x.num)

/-- The verb `%.1f`. -/
def Float64.fmtF1 (x : Float64) : GoString :=
  if x.num < 0 then 0x2d :: fmtF1Nat x.num.natAbs (2 ^ x.exp)
  else fmtF1Nat x.num.natAbs (2 ^ x.exp)

/-! ## `filesize` -/

/-- The table `var UNIT = [4]byte{'K', 'M', 'G', 'T'}`. -/
def UNIT : List Nat := [0x4b, 0x4d, 0x47, 0x54]

/-- The loop `for left > 1100 && unit < 4 { left /= 1024.0; unit += 1 }`. -/
def filesizeLoop (left : Float64) (unit : Nat) : Float64 × Nat :=
  if left.gtInt 1100 = true ∧ unit < 4 then filesizeLoop left.div1024 (unit + 1)
  else (left, unit)
termination_by 4 - unit
decreasing_by omega

/-- The function `filesize`.  The index expression `UNIT[unit-1]` panics when
the index is outside the table. -/
def filesize (size : Int) : Outcome GoString :=
  let r := filesizeLoop (Float64.ofInt size) 0
  if r.2 = 0 then
    Outcome.ok (fmtInt size ++ ascii "B")
  else
    match UNIT[r.2 - 1]? with
    | some u => Outcome.ok (r.1.fmtF1 ++ u :: ascii "iB")
    | none => Outcome.panic

/-! ## Library functions on byte strings -/

/-- The function `bytes.TrimRight(s, cutset)` for an ASCII cutset: trailing bytes that
belong to the cutset are removed. -/
def bytes.TrimRight (s cutset : GoString) : GoString :=
  (s.reverse.dropWhile fun c => cutset.contains c).reverse

/-- Scan of `bytes.ReplaceAll`: `skip` counts the bytes of a match still to pass over. -/
def bytes.replaceScan (old new : GoString) : Nat → GoString → GoString
  | _, [] => []
  | skip + 1, _ :: cs => bytes.replaceScan old new skip cs
  | 0, c :: cs =>
    if old.isPrefixOf (c :: cs) then new ++ bytes.replaceScan old new (old.length - 1) cs
    else c :: bytes.replaceScan old new 0 cs

/-- The function `bytes.ReplaceAll(s, old, new)` for a non-empty `old`: every
non-overlapping occurrence of `old`, from the left, is replaced by `new`. -/
def bytes.ReplaceAll (s old new : GoString) : GoString := bytes.replaceScan old new 0 s

/-- The function `strings.HasPrefix`. -/
def strings.HasPrefix (s pre : GoString) : Bool := pre.isPrefixOf s

/-- The slice expression `s[lo:hi]` on a string: `none` stands for the run-time
panic "slice bounds out of range", raised unless `0 ≤ lo ≤ hi ≤ len(s)`. -/
def sliceStr (s : GoString) (lo hi : Int) : Option GoString :=
  if 0 ≤ lo ∧ lo ≤ hi ∧ hi ≤ s.length then some ((s.take hi.toNat).drop lo.toNat) else none

/-- Decoding of the first UTF-8 sequence, as `utf8.DecodeRuneInString` does:
the code point and the number of bytes read; an invalid or truncated sequence
gives `(0xFFFD, 1)`, the empty string `(0xFFFD, 0)`. -/
def utf8.DecodeRune (s : GoString) : Nat × Nat :=
  let cont (c : Nat) : Bool := 0x80 ≤ c && c ≤ 0xbf
  match s with
  | [] => (0xfffd, 0)
  | s0 :: t =>
    if s0 < 0x80 then (s0, 1)
    else if s0 < 0xc2 || 0xf4 < s0 then (0xfffd, 1)
    else
      let sz : Nat := if s0 < 0xe0 then 2 else if s0 < 0xf0 then 3 else 4
      let lo : Nat := if s0 = 0xe0 then 0xa0 else if s0 = 0xf0 then 0x90 else 0x80
      let hi : Nat := if s0 = 0xed then 0x9f else if s0 = 0xf4 then 0x8f else 0xbf
      if t.length + 1 < sz then (0xfffd, 1)
      else
        match t with
        | [] => (0xfffd, 1)
        | s1 :: t1 =>
          if s1 < lo || hi < s1 then (0xfffd, 1)
          else if sz = 2 then ((s0 % 32) * 64 + s1 % 64, 2)
          else
            match t1 with
            | [] => (0xfffd, 1)
            | s2 :: t2 =>
              if !cont s2 then (0xfffd, 1)
              else if sz = 3 then
                ((s0 % 16) * 4096 + (s1 % 64) * 64 + s2 % 64, 3)
              else
                match t2 with
                | [] => (0xfffd, 1)
                | s3 :: _ =>
                  if !cont s3 then (0xfffd, 1)
                  else ((s0 % 8) * 262144 + (s1 % 64) * 4096
                          + (s2 % 64) * 64 + s3 % 64, 4)

/-- Decoding of the last UTF-8 sequence, as `utf8.DecodeLastRuneInString` does. -/
def utf8.DecodeLastRune (s : GoString) : Nat × Nat :=
  let e := s.length
  match s.getLast? with
  | none => (0xfffd, 0)
  | some c =>
    if c < 0x80 then (c, 1)
    else
      let runeStart (i : Nat) : Bool :=
        match s.get? i with
        | some x => !(0x80 ≤ x && x ≤ 0xbf)
        | none => false
      let start : Nat :=
        match [2, 3, 4].find? fun d => decide (d ≤ e) && runeStart (e - d) with
        | some d => e - d
        | none => e - 5
      let r := utf8.DecodeRune (s.drop start)
      if start + r.2 ≠ e then (0xfffd, 1) else r

/-- The predicate `unicode.IsSpace` on a code point. -/
def unicode.IsSpace (r : Nat) : Bool :=
  (9 ≤ r && r ≤ 13) || r = 0x20 || r = 0x85 || r = 0xa0 || r = 0x1680 ||
    (0x2000 ≤ r && r ≤ 0x200a) || r = 0x2028 || r = 0x2029 || r = 0x202f || r = 0x205f ||
    r = 0x3000

/-- The table `asciiSpace` of package `strings`: tab, line feed, vertical tab,
form feed, carriage return, space. -/
def strings.asciiSpace (c : Nat) : Bool := (9 ≤ c && c ≤ 13) || c = 0x20

/-- The function `strings.TrimLeftFunc(s, unicode.IsSpace)`. -/
def strings.trimLeftSpace : (fuel : Nat) → GoString → GoString
  | 0, s => s
  | fuel + 1, s =>
    if s = [] then []
    else
      let r := utf8.DecodeRune s
      if unicode.IsSpace r.1 then strings.trimLeftSpace fuel (s.drop r.2) else s

/-- The function `lastIndexFunc(s[0:i], unicode.IsSpace, false)`: where the last
code point that is not a space starts, if there is one. -/
def strings.lastIndexNotSpace (s : GoString) : (fuel : Nat) → (i : Nat) → Option Nat
  | 0, _ => none
  | fuel + 1, i =>
    if i = 0 then none
    else
      let r := utf8.DecodeLastRune (s.take i)
      if unicode.IsSpace r.1 then strings.lastIndexNotSpace s fuel (i - r.2) else some (i - r.2)

/-- The function `strings.TrimRightFunc(s, unicode.IsSpace)`. -/
def strings.trimRightSpace (s : GoString) : GoString :=
  match strings.lastIndexNotSpace s s.length s.length with
  | none => []
  | some i =>
    match s.get? i with
    | some c => if 0x80 ≤ c then s.take (i + (utf8.DecodeRune (s.drop i)).2) else s.take (i + 1)
    | none => s.take (i + 1)

/-- Second loop of `strings.TrimSpace`, on the reversed string: ASCII spaces
are removed from the end; a byte `≥ 0x80` hands over to `TrimRightFunc`. -/
def strings.trimSpaceEnd : GoString → GoString
  | [] => []
  | c :: cs =>
    if 0x80 ≤ c then (strings.trimRightSpace (c :: cs).reverse).reverse
    else if strings.asciiSpace c then strings.trimSpaceEnd cs
    else c :: cs

/-- The function `strings.TrimSpace`: ASCII spaces are removed from the start;
a byte `≥ 0x80` hands over to `TrimFunc(s[start:], unicode.IsSpace)`. -/
def strings.TrimSpace : GoString → GoString
  | [] => []
  | c :: cs =>
    if 0x80 ≤ c then
      strings.trimRightSpace (strings.trimLeftSpace (cs.length + 1) (c :: cs))
    else if strings.asciiSpace c then strings.TrimSpace cs
    else (strings.trimSpaceEnd (c :: cs).reverse).reverse

/-- Value of a decimal digit. -/
def strconv.digit (c : Nat) : Option Nat :=
  if 0x30 ≤ c ∧ c ≤ 0x39 then some (c - 0x30) else none

/-- Value of a digit string read from the left, `none` at a byte that is not a digit. -/
def strconv.digits : GoString → Nat → Option Nat
  | [], acc => some acc
  | c :: cs, acc =>
    match strconv.digit c with
    | some d => strconv.digits cs (acc * 10 + d)
    | none => none

/-- The function `strconv.Atoi`; `none` stands for a returned error.  The input
must be an optional sign `+` or `-` followed by one or more decimal digits
(syntax error otherwise) and denote a value of type `int` (range error
otherwise). -/
def strconv.Atoi (s : GoString) : Option Int :=
  let parse (neg : Bool) (body : GoString) : Option Int :=
    if body = [] then none
    else
      match strconv.digits body 0 with
      | none => none
      | some v =>
        let n : Int := if neg then -(v : Int) else (v : Int)
        if InInt64 n then some n else none
  match s with
  | [] => none
  | c :: t =>
    if c = 0x2d then parse true t
    else if c = 0x2b then parse false t
    else parse false (c :: t)

/-- The function `bytes.IndexByte(b, c)`: the index of the first `c` in `b`;
`none` stands for the result `-1`, returned when `c` is not in `b`. -/
def bytes.IndexByte : GoString → Nat → Option Nat
  | [], _ => none
  | b :: bs, c => if b = c then some 0 else (bytes.IndexByte bs c).map fun i => i + 1

/-- The constant `bufio.MaxScanTokenSize`: the size up to which a `Scanner`
made by `bufio.NewScanner` lets its buffer grow. -/
def bufio.MaxScanTokenSize : Nat := 64 * 1024

/-- The function `dropCR` of package `bufio`: one trailing carriage return is dropped. -/
def bufio.dropCR (data : GoString) : GoString :=
  if data.getLast? = some 0x0d then data.dropLast else data

/-- The split function `bufio.ScanLines`, on the bytes in the buffer and the
flag `atEOF`: the number of bytes to advance and the token, `none` standing
for the token `nil` (no token yet, or no more input). -/
def bufio.ScanLines (data : GoString) (atEOF : Bool) : Nat × Option GoString :=
  if atEOF && data.isEmpty then (0, none)
  else
    match bytes.IndexByte data 0x0a with
    | some i => (i + 1, some (bufio.dropCR (data.take i)))
    | none => if atEOF then (data.length, some (bufio.dropCR data)) else (0, none)

/-- One call of `(*Scanner).Scan`, for a scanner made by `bufio.NewScanner`
with the split function `bufio.ScanLines`, on the input not yet consumed:
`some (token, rest)` when `Scan` returns `true`, `token` being what `Text()`
then returns and `rest` the input left; `none` when `Scan` returns `false`.
The buffer takes up to `MaxScanTokenSize` bytes of the input ahead; the split
function is at the end of the input (`atEOF`) when all of it is in the buffer
and the buffer is not full.  When the full buffer holds no token, `Scan`
records `ErrTooLong` and returns `false`, as it does at the end of the input;
only `Err()` tells the two apart. -/
def bufio.Scanner.Scan (input : GoString) : Option (GoString × GoString) :=
  let data := input.take bufio.MaxScanTokenSize
  let atEOF := decide (input.length < bufio.MaxScanTokenSize)
  match bufio.ScanLines data atEOF with
  | (advance, some token) => some (token, input.drop advance)
  | (_, none) => none

/-- The tokens of the successive calls of `Scan` that return `true`, up to the
first call that returns `false`.  Every call that returns `true` consumes at
least one byte, so `fuel` calls are enough for an input of `fuel` bytes. -/
def bufio.Scanner.tokensFuel : (fuel : Nat) → GoString → List GoString
  | 0, _ => []
  | fuel + 1, input =>
    match bufio.Scanner.Scan input with
    | none => []
    | some (token, rest) => token :: bufio.Scanner.tokensFuel fuel rest

/-- The lines that `for scanner.Scan() { line := scanner.Text(); ... }` goes
through, for a scanner on a file with the given content. -/
def bufio.Scanner.tokens (content : GoString) : List GoString :=
  bufio.Scanner.tokensFuel content.length content

/-! ## The program -/

/-- The record `type SwapInfo struct { pid int; comm string; size int }`. -/
structure SwapInfo where
  pid : Int
  comm : GoString
  size : Int
  deriving DecidableEq, Repr

/-- The part of the file system the program reads, below `config.Prefix`.
* `dir`: the entry names `os.ReadDir(prefix + "/proc")` returns, `none` when it fails;
* `cmdline pid`: the content of `/proc/<pid>/cmdline`, `none` when opening or
  reading it fails;
* `smaps pid`: the content of `/proc/<pid>/smaps`, `none` when opening it fails. -/
structure ProcFS where
  dir : Option (List GoString)
  cmdline : Int → Option GoString
  smaps : Int → Option GoString

/-- The function `sanitizeComm`. -/
def sanitizeComm (raw : GoString) : GoString :=
  let raw1 := if raw.length > 0 then bytes.TrimRight raw [0x00] else raw
  let rep := bytes.ReplaceAll raw1 [0x00] [0x20]
  rep

/-- The function `readComm`. -/
def readComm (fs : ProcFS) (pid : Int) : Outcome GoString :=
  match fs.cmdline pid with
  | none => Outcome.error
  | some content => Outcome.ok (sanitizeComm content)

/-- The loop `for scanner.Scan() { ... }` of `readSwapSize` followed by
`return total * 1024, nil`, on the lines the scanner still yields and the
running `total`.  The loop ends when `Scan` returns `false`; `scanner.Err()`
is not looked at. -/
def readSwapSizeLoop : List GoString → Int → Outcome Int
  | [], total => Outcome.ok (wrap64 (total * 1024))
  | line :: rest, total =>
    if strings.HasPrefix line (ascii "Swap:") then
      match sliceStr line 5 ((line.length : Int) - 3) with
      | none => Outcome.panic
      | some sub =>
        match strconv.Atoi (strings.TrimSpace sub) with
        | none => Outcome.error
        | some size => readSwapSizeLoop rest (wrap64 (total + size))
    else readSwapSizeLoop rest total

/-- The function `readSwapSize`. -/
def readSwapSize (fs : ProcFS) (pid : Int) : Outcome Int :=
  match fs.smaps pid with
  | none => Outcome.error
  | some content => readSwapSizeLoop (bufio.Scanner.tokens content) 0

/-- The loop `for _, file := range dir { ... }` of `getSwapInfoList`, over the
two per-process reads, on the entry names still to come and the list built so far. -/
def getSwapInfoListLoop (rdComm : Int → Outcome GoString) (rdSwap : Int → Outcome Int) :
    List GoString → List SwapInfo → Outcome (List SwapInfo)
  | [], lst => Outcome.ok lst
  | name :: rest, lst =>
    match strconv.Atoi name with
    | none => getSwapInfoListLoop rdComm rdSwap rest lst
    | some pid =>
      match rdComm pid with
      | Outcome.error => getSwapInfoListLoop rdComm rdSwap rest lst
      | Outcome.panic => Outcome.panic
      | Outcome.fatal => Outcome.fatal
      | Outcome.ok comm =>
        match rdSwap pid with
        | Outcome.error => getSwapInfoListLoop rdComm rdSwap rest lst
        | Outcome.panic => Outcome.panic
        | Outcome.fatal => Outcome.fatal
        | Outcome.ok size =>
          getSwapInfoListLoop rdComm rdSwap rest (lst ++ [⟨pid, comm, size⟩])

/-- The function `getSwapInfoList`. -/
def getSwapInfoList (fs : ProcFS) : Outcome (List SwapInfo) :=
  match fs.dir with
  | none => Outcome.fatal
  | some names => getSwapInfoListLoop (readComm fs) (readSwapSize fs) names []

/-- The comparison `lst[i].size < lst[j].size` given to `sort.Slice`. -/
def sizeLess (a b : SwapInfo) : Prop := a.size < b.size

/-- The call `sort.Slice(lst, less)`.  The library fixes the result only up to
its contract: the slice is rearranged (same elements) so that no element is
`less` than one before it; equal elements may come in any order. -/
structure SortSlice where
  sort : List SwapInfo → List SwapInfo
  perm : ∀ l, List.Perm (sort l) l
  sorted : ∀ l, List.Pairwise (fun a b => ¬ sizeLess b a) (sort l)

/-- The header, `fmt.Printf("%7s %9s %s\n", "PID", "SWAP", "COMMAND")`. -/
def headerLine : GoString :=
  padLeft 7 (ascii "PID") ++ ascii " " ++ padLeft 9 (ascii "SWAP") ++ ascii " "
    ++ ascii "COMMAND" ++ ascii "\n"

/-- A row, `fmt.Printf("%7d %9s %s\n", info.pid, filesize(info.size), info.comm)`,
given the string `filesize` returned. -/
def rowLine (info : SwapInfo) (sz : GoString) : GoString :=
  padLeft 7 (fmtInt info.pid) ++ ascii " " ++ padLeft 9 sz ++ ascii " " ++ info.comm
    ++ ascii "\n"

/-- The last output, `fmt.Printf("Total: %10s\n", filesize(total))`, given the
string `filesize` returned. -/
def totalLine (sz : GoString) : GoString := ascii "Total: " ++ padLeft 10 sz ++ ascii "\n"

/-- The loop `for _, info := range lst { ... }` of `Swapview`, on the records
still to come and the running `total`: the strings printed, one per `Printf`,
and the final `total`. -/
def SwapviewLoop : List SwapInfo → Int → Outcome (List GoString × Int)
  | [], total => Outcome.ok ([], total)
  | info :: rest, total =>
    if info.size = 0 then SwapviewLoop rest total
    else
      match filesize info.size with
      | Outcome.ok sz =>
        match SwapviewLoop rest (wrap64 (total + info.size)) with
        | Outcome.ok (rows, t) => Outcome.ok (rowLine info sz :: rows, t)
        | Outcome.error => Outcome.error
        | Outcome.panic => Outcome.panic
        | Outcome.fatal => Outcome.fatal
      | Outcome.error => Outcome.error
      | Outcome.panic => Outcome.panic
      | Outcome.fatal => Outcome.fatal

/-- The function `Swapview` after the call of `getSwapInfoList`: sort, header,
rows, total.  The result lists what the successive `Printf` calls print. -/
def SwapviewReport (S : SortSlice) (lst : List SwapInfo) : Outcome (List GoString) :=
  match SwapviewLoop (S.sort lst) 0 with
  | Outcome.ok (rows, total) =>
    match filesize total with
    | Outcome.ok sz => Outcome.ok (headerLine :: rows ++ [totalLine sz])
    | Outcome.error => Outcome.error
    | Outcome.panic => Outcome.panic
    | Outcome.fatal => Outcome.fatal
  | Outcome.error => Outcome.error
  | Outcome.panic => Outcome.panic
  | Outcome.fatal => Outcome.fatal

/-- The function `Swapview`. -/
def Swapview (S : SortSlice) (fs : ProcFS) : Outcome (List GoString) :=
  match getSwapInfoList fs with
  | Outcome.ok lst => SwapviewReport S lst
  | Outcome.error => Outcome.error
  | Outcome.panic => Outcome.panic
  | Outcome.fatal => Outcome.fatal

/-- An implementation of the contract of `sort.Slice`: insertion sort by size. -/
def insertionSortSlice : SortSlice where
  sort l := l.insertionSort fun a b => a.size ≤ b.size
  perm l := List.perm_insertionSort _ l
  sorted l := by
    have h := @List.sorted_insertionSort SwapInfo (fun a b => a.size ≤ b.size) _
      ⟨fun a b => le_total a.size b.size⟩ ⟨fun a b c h1 h2 => le_trans h1 h2⟩ l
    exact h.imp fun hab => not_lt.mpr hab

/-! ## Vocabulary of the specification -/

/-- A non-empty string of decimal digits. -/
def IsDigits (ds : GoString) : Prop := ds ≠ [] ∧ ∀ c ∈ ds, 0x30 ≤ c ∧ c ≤ 0x39

/-- The number a string of decimal digits denotes. -/
def digitsValue (ds : GoString) : Nat := ds.foldl (fun acc c => acc * 10 + (c - 0x30)) 0

/-- The text `num` is a decimal numeral for the integer `v`: one or more
digits, possibly after a sign `+` or `-`. -/
inductive IsNumeral : GoString → Int → Prop where
  | unsigned (ds : GoString) : IsDigits ds → IsNumeral ds (digitsValue ds)
  | plus (ds : GoString) : IsDigits ds → IsNumeral (0x2b :: ds) (digitsValue ds)
  | minus (ds : GoString) : IsDigits ds → IsNumeral (0x2d :: ds) (-(digitsValue ds : Int))

/-- A string of white space: tab, line feed, vertical tab, form feed, carriage
return or space, any number of them. -/
def IsBlank (ws : GoString) : Prop := ∀ c ∈ ws, strings.asciiSpace c = true

/-- The line has the form `Swap:<whitespace><integer><whitespace><suffix>`
with a suffix of three bytes, and `v` is the integer. -/
def IsSwapLine (line : GoString) (v : Int) : Prop :=
  ∃ ws1 num ws2 suffix : GoString,
    line = ascii "Swap:" ++ ws1 ++ num ++ ws2 ++ suffix ∧
      IsBlank ws1 ∧ IsNumeral num v ∧ IsBlank ws2 ∧ suffix.length = 3

/-- The numeric field of a `Swap:` line: the text between the 5-byte prefix
and the last 3 bytes, with surrounding white space removed. -/
def numericField (line : GoString) : GoString :=
  strings.TrimSpace ((line.take (line.length - 3)).drop 5)

/-- The lines that begin with the prefix `Swap:`. -/
def swapLines (lines : List GoString) : List GoString :=
  lines.filter fun line => strings.HasPrefix line (ascii "Swap:")

/-- The integers read from the `Swap:` lines: the numeric fields that
`strconv.Atoi` parses, in order. -/
def parsedFields (lines : List GoString) : List Int :=
  (swapLines lines).filterMap fun line => strconv.Atoi (numericField line)

/-- The runs of bytes between the line feeds of a text: each ends at a line
feed, except for a last one that is not empty and ends with the text. -/
def rawLines : GoString → List GoString
  | [] => []
  | c :: cs =>
    if c = 0x0a then [] :: rawLines cs
    else
      match rawLines cs with
      | [] => [[c]]
      | l :: ls => (c :: l) :: ls

/-- The lines of a text: each ends at a line feed or at the end of the text,
and a carriage return right before that end is not part of the line. -/
def textLines (content : GoString) : List GoString := (rawLines content).map bufio.dropCR

/-- The lines of a text that come before its first line of `MaxScanTokenSize`
bytes or more (the carriage return that may end the line counted, the line
feed not); all the lines when there is no such line. -/
def linesRead (content : GoString) : List GoString :=
  ((rawLines content).takeWhile fun l => decide (l.length < bufio.MaxScanTokenSize)).map
    bufio.dropCR

/-- A process tree with the single entry `1`, whose `cmdline` holds `init` and a
NUL, and whose `smaps` holds the given content. -/
def fsOfSmaps (content : GoString) : ProcFS where
  dir := some [ascii "1"]
  cmdline := fun _ => some (ascii "init\x00")
  smaps := fun _ => some content

/-- A process tree with the given entry names, in which every `cmdline` holds
`init` and a NUL and every `smaps` holds the one line `Swap: 1 kB`. -/
def fsOfDir (names : List GoString) : ProcFS where
  dir := some names
  cmdline := fun _ => some (ascii "init\x00")
  smaps := fun _ => some (ascii "Swap: 1 kB\n")

/-- A process tree with the entries `1`, `2`, `3` and `self`: the three
processes have swap sizes 0, 1024 and 1048576 bytes. -/
def fixtureFS : ProcFS where
  dir := some [ascii "1", ascii "2", ascii "3", ascii "self"]
  cmdline := fun pid =>
    if pid = 1 then some (ascii "init\x00")
    else if pid = 2 then some (ascii "sh\x00-c\x00ls\x00")
    else if pid = 3 then some (ascii "top\x00")
    else none
  smaps := fun pid =>
    if pid = 1 then some (ascii "Size: 4 kB\nSwap: 0 kB\n")
    else if pid = 2 then some (ascii "Swap: 1 kB\nSwapPss: 1 kB\n")
    else if pid = 3 then some (ascii "Swap: 1000 kB\nSwap: 24 kB\n")
    else none

/-- The test `info.size == 0` of the print loop, negated: the record is printed. -/
def isPrinted (info : SwapInfo) : Bool := decide (info.size ≠ 0)

/-- The string `row` is the row printed for the record `info`. -/
def IsRowOf (info : SwapInfo) (row : GoString) : Prop :=
  ∃ sz : GoString, filesize info.size = Outcome.ok sz ∧ row = rowLine info sz

/-- A read that either succeeds or returns an error, as a result of a Go function. -/
def Outcome.ofOption {α : Type} : Option α → Outcome α
  | some a => Outcome.ok a
  | none => Outcome.error

/-- The record an entry name gives, for two per-process reads that succeed
(`some`) or fail (`none`): the name must parse as a pid and both reads must
succeed; the record carries the pid and the two values read. -/
def recordOf (rc : Int → Option GoString) (rs : Int → Option Int) (name : GoString) :
    Option SwapInfo :=
  match strconv.Atoi name with
  | none => none
  | some pid =>
    match rc pid, rs pid with
    | some comm, some size => some ⟨pid, comm, size⟩
    | _, _ => none

/-- The condition `left > 1100 && unit < 4` of the loop of `filesize`, on the
pair of the two loop variables. -/
def filesizeGuard (st : Float64 × Nat) : Bool := st.1.gtInt 1100 && decide (st.2 < 4)

/-- The body `left /= 1024.0; unit += 1` of the loop of `filesize`, on the pair
of the two loop variables. -/
def filesizeBody (st : Float64 × Nat) : Float64 × Nat := (st.1.div1024, st.2 + 1)

/-- Every byte of the string is an ASCII character, so the string has as many
characters as bytes. -/
def IsAscii (s : GoString) : Prop := ∀ c ∈ s, c < 0x80

/-! ## Checks of the embedding on known values -/

/-- The verbs `%d` and `%.1f` on known values; `%.1f` rounds ties to even. -/
theorem fmt_examples :
    fmtInt (-15) = ascii "-15" ∧ fmtInt 0 = ascii "0" ∧
      fmtF1Nat 1000000 1024 = ascii "976.6" ∧ fmtF1Nat 5 4 = ascii "1.2" ∧
      fmtF1Nat 7 4 = ascii "1.8" ∧ fmtF1Nat 1023 1024 = ascii "1.0" ∧
      headerLine = ascii "    PID      SWAP COMMAND\n" := by
  decide

/-- The conversion `float64(n)` on known values: exact up to `2 ^ 53`, to the
nearest even multiple of 2 just above. -/
theorem round53_examples :
    round53 1000000 = 1000000 ∧ round53 (-7) = -7 ∧
      round53 9007199254740993 = 9007199254740992 ∧
      round53 9007199254740995 = 9007199254740996 ∧
      round53 9223372036854775807 = 9223372036854775808 := by
  decide

/-- The function `strconv.Atoi` on known values. -/
theorem atoi_examples :
    strconv.Atoi (ascii "-12") = some (-12) ∧ strconv.Atoi (ascii "+0012") = some 12 ∧
      strconv.Atoi (ascii "") = none ∧ strconv.Atoi (ascii "-") = none ∧
      strconv.Atoi (ascii "1_0") = none ∧ strconv.Atoi (ascii " 1") = none ∧
      strconv.Atoi (ascii "9223372036854775807") = some 9223372036854775807 ∧
      strconv.Atoi (ascii "9223372036854775808") = none ∧
      strconv.Atoi (ascii "-9223372036854775808") = some (-9223372036854775808) := by
  decide

/-- The function `strings.TrimSpace` on known values, among them the no-break
space `U+00A0`, the thin space `U+2009`, the ideographic space `U+3000` and
invalid UTF-8. -/
theorem trimSpace_examples :
    strings.TrimSpace (ascii "  12 \t") = ascii "12" ∧ strings.TrimSpace (ascii " \t ") = [] ∧
      strings.TrimSpace [0x20, 0xc2, 0xa0, 0x31, 0x20, 0xe2, 0x80, 0x89] = [0x31] ∧
      strings.TrimSpace [0x31, 0xe3, 0x80, 0x80] = [0x31] ∧
      strings.TrimSpace [0x20, 0xc2, 0x31, 0x20, 0xe2, 0x80] = [0xc2, 0x31, 0x20, 0xe2, 0x80] := by
  decide

/-- The other library functions and the loop of `readSwapSize` on known values. -/
theorem library_examples :
    bytes.ReplaceAll (ascii "a--b---c") (ascii "--") (ascii "+") = ascii "a+b+-c" ∧
      bytes.TrimRight (ascii "ab\x00\x00") [0x00] = ascii "ab" ∧
      sliceStr (ascii "Swap: 100 kB") 5 9 = some (ascii " 100") ∧
      sliceStr (ascii "Swap:") 5 2 = none ∧
      readSwapSizeLoop [ascii "Swap: 100 kB", ascii "Size: 4 kB", ascii "Swap: 200 kB"] 0
        = Outcome.ok 307200 ∧
      readSwapSizeLoop [ascii "Swap:xyz"] 0 = Outcome.error := by
  decide

/-- The scanner on known values: line ends `LF` and `CR LF`, an empty line, a
last line without line feed; the split function `bufio.ScanLines`; the lines
of a text. -/
theorem scanner_examples :
    bufio.Scanner.tokens (ascii "a\r\nb\n\nc") = [ascii "a", ascii "b", [], ascii "c"] ∧
      bufio.Scanner.tokens (ascii "\n") = [[]] ∧ bufio.Scanner.tokens [] = [] ∧
      bufio.Scanner.tokens (ascii "a\r") = [ascii "a"] ∧
      bufio.Scanner.tokens (ascii "\r\r\n") = [ascii "\r"] ∧
      bufio.ScanLines (ascii "ab") false = (0, none) ∧
      bufio.ScanLines (ascii "ab") true = (2, some (ascii "ab")) ∧
      bufio.ScanLines (ascii "a\nb") false = (2, some (ascii "a")) ∧
      bufio.ScanLines [] true = (0, none) ∧
      bufio.Scanner.Scan (ascii "a\nb") = some (ascii "a", ascii "b") ∧
      rawLines (ascii "a\r\nb\n\nc") = [ascii "a\r", ascii "b", [], ascii "c"] ∧
      textLines (ascii "a\r\nb\n\nc") = [ascii "a", ascii "b", [], ascii "c"] ∧
      linesRead (ascii "a\r\nb\n\nc") = [ascii "a", ascii "b", [], ascii "c"] ∧
      readSwapSize (fsOfSmaps (ascii "Swap: 100 kB\nSwap: 200 kB\n")) 1 = Outcome.ok 307200 := by
  decide

/-- The whole program on the tree `fixtureFS`: two rows, ascending by size, and
the total of `1024 + 1048576` bytes. -/
theorem swapview_fixture :
    getSwapInfoList fixtureFS
        = Outcome.ok [⟨1, ascii "init", 0⟩, ⟨2, ascii "sh -c ls", 1024⟩,
            ⟨3, ascii "top", 1048576⟩] ∧
      Swapview insertionSortSlice fixtureFS
        = Outcome.ok [ascii "    PID      SWAP COMMAND\n", ascii "      2     1024B sh -c ls\n",
            ascii "      3 1024.0KiB top\n", ascii "Total:  1025.0KiB\n"] := by
  have hlist : getSwapInfoList fixtureFS
      = Outcome.ok [⟨1, ascii "init", 0⟩, ⟨2, ascii "sh -c ls", 1024⟩,
          ⟨3, ascii "top", 1048576⟩] := by decide
  have hsort : insertionSortSlice.sort
      [⟨1, ascii "init", 0⟩, ⟨2, ascii "sh -c ls", 1024⟩, ⟨3, ascii "top", 1048576⟩]
      = [⟨1, ascii "init", 0⟩, ⟨2, ascii "sh -c ls", 1024⟩, ⟨3, ascii "top", 1048576⟩] := by
    decide
  have hr1 : round53 1024 = 1024 := by decide
  have hr2 : round53 1048576 = 1048576 := by decide
  have hr3 : round53 1049600 = 1049600 := by decide
  have hf1 : filesize 1024 = Outcome.ok (ascii "1024B") := by
    simp [filesize, filesizeLoop, Float64.ofInt, Float64.gtInt, Float64.div1024, hr1]
    decide
  have hf2 : filesize 1048576 = Outcome.ok (ascii "1024.0KiB") := by
    simp [filesize, filesizeLoop, Float64.ofInt, Float64.gtInt, Float64.div1024, hr2]
    decide
  have hf3 : filesize 1049600 = Outcome.ok (ascii "1025.0KiB") := by
    simp [filesize, filesizeLoop, Float64.ofInt, Float64.gtInt, Float64.div1024, hr3]
    decide
  have hw1 : wrap64 1024 = 1024 := by decide
  have hw2 : wrap64 1049600 = 1049600 := by decide
  refine ⟨hlist, ?_⟩
  simp [Swapview, hlist, SwapviewReport, hsort, SwapviewLoop, hf1, hf2, hf3, hw1, hw2]
  decide

/-! ## Lemmas on float64 conversion and the loop of `filesize` -/

theorem f64Shift_small (fuel a : Nat) (h : a < 2 ^ 53) : f64Shift fuel a = 0 := by
  cases fuel with
  | zero => rfl
  | succ k => rw [f64Shift, if_pos h]

theorem f64Shift_large (fuel : Nat) :
    ∀ a : Nat, 2 ^ 53 ≤ a → a ≤ fuel →
      1 ≤ f64Shift fuel a ∧ 2 ^ 52 ≤ a / 2 ^ f64Shift fuel a := by
  induction fuel with
  | zero => intro a h1 h2; omega
  | succ k ih =>
    intro a h1 h2
    have hnot : ¬ a < 2 ^ 53 := by omega
    simp only [f64Shift, hnot, if_false]
    by_cases hs : a / 2 < 2 ^ 53
    · rw [f64Shift_small k _ hs]
      refine ⟨by omega, ?_⟩
      simp only [zero_add, pow_one]
      omega
    · have h3 : 2 ^ 53 ≤ a / 2 := by omega
      have h4 : a / 2 ≤ k := by omega
      obtain ⟨_, h6⟩ := ih (a / 2) h3 h4
      refine ⟨by omega, ?_⟩
      have e : 2 ^ (f64Shift k (a / 2) + 1) = 2 * 2 ^ f64Shift k (a / 2) := pow_succ' _ _
      rw [e, ← Nat.div_div_eq_div_mul]
      exact h6

/-- The conversion `float64(n)` is exact up to `2 ^ 53`. -/
theorem round53_exact (n : Int) (h : n.natAbs < 2 ^ 53) : round53 n = n := by
  unfold round53
  simp only [f64Shift_small _ _ h, pow_zero, Nat.div_one, Nat.mod_one, Nat.mul_zero, Nat.mul_one]
  have hc : ¬ (1 < 0 ∨ (0 = 1 ∧ n.natAbs % 2 = 1)) := by omega
  rw [if_neg hc]
  exact Int.sign_mul_natAbs n

/-- Beyond `2 ^ 53` the conversion `float64(n)` stays at or above `2 ^ 53`. -/
theorem round53_large (n : Int) (h : 2 ^ 53 ≤ n) : 2 ^ 53 ≤ round53 n := by
  have hpos : 0 < n := by omega
  have ha : 2 ^ 53 ≤ n.natAbs := by omega
  obtain ⟨h1, h2⟩ := f64Shift_large n.natAbs n.natAbs ha le_rfl
  unfold round53
  simp only [Int.sign_eq_one_of_pos hpos, one_mul]
  generalize f64Shift n.natAbs n.natAbs = s at h1 h2 ⊢
  have hs : 2 ≤ 2 ^ s := by
    calc 2 = 2 ^ 1 := by norm_num
      _ ≤ 2 ^ s := Nat.pow_le_pow_right (by norm_num) h1
  have hq : 2 ^ 52 * 2 ≤ (n.natAbs / 2 ^ s) * 2 ^ s := Nat.mul_le_mul h2 hs
  have hle : (n.natAbs / 2 ^ s) * 2 ^ s ≤
      (if 2 ^ s < 2 * (n.natAbs % 2 ^ s) ∨
          (2 * (n.natAbs % 2 ^ s) = 2 ^ s ∧ n.natAbs / 2 ^ s % 2 = 1)
        then n.natAbs / 2 ^ s + 1 else n.natAbs / 2 ^ s) * 2 ^ s := by
    apply Nat.mul_le_mul_right
    split <;> omega
  have : (2 ^ 53 : Nat) ≤ _ := le_trans (by norm_num at hq ⊢; exact hq) hle
  exact_mod_cast this

theorem filesizeLoop_stop (left : Float64) (unit : Nat)
    (h : left.gtInt 1100 = false ∨ 4 ≤ unit) : filesizeLoop left unit = (left, unit) := by
  rw [filesizeLoop]
  have : ¬ (left.gtInt 1100 = true ∧ unit < 4) := by
    rcases h with h | h
    · simp [h]
    · omega
  rw [if_neg this]

theorem filesizeLoop_step (left : Float64) (unit : Nat)
    (h : left.gtInt 1100 = true) (hu : unit < 4) :
    filesizeLoop left unit = filesizeLoop left.div1024 (unit + 1) := by
  rw [filesizeLoop, if_pos ⟨h, hu⟩]

/-- The state of the loop of `filesize` at exit, for a positive converted value
`m`: the unit index is the first `k ≥ 1` with `m ≤ 1100 * 1024 ^ k`, or `4`. -/
theorem filesizeLoop_pos (m : Int) (h0 : 1100 < m) :
    ∃ k : Nat, 1 ≤ k ∧ k ≤ 4 ∧ filesizeLoop ⟨m, 0⟩ 0 = (⟨m, 10 * k⟩, k) ∧
      (∀ j : Nat, j < k → 1100 * 1024 ^ j < m) ∧ (m ≤ 1100 * 1024 ^ k ∨ k = 4) := by
  have g0 : Float64.gtInt ⟨m, 0⟩ 1100 = true := by simp [Float64.gtInt, h0]
  rw [filesizeLoop_step _ _ g0 (by norm_num)]
  by_cases h1 : 1100 * 1024 ^ 1 < m
  · have g1 : Float64.gtInt (Float64.div1024 ⟨m, 0⟩) 1100 = true := by
      simp [Float64.gtInt, Float64.div1024]; omega
    rw [filesizeLoop_step _ _ g1 (by norm_num)]
    by_cases h2 : 1100 * 1024 ^ 2 < m
    · have g2 : Float64.gtInt (Float64.div1024 (Float64.div1024 ⟨m, 0⟩)) 1100 = true := by
        simp [Float64.gtInt, Float64.div1024]; omega
      rw [filesizeLoop_step _ _ g2 (by norm_num)]
      by_cases h3 : 1100 * 1024 ^ 3 < m
      · have g3 : Float64.gtInt
            (Float64.div1024 (Float64.div1024 (Float64.div1024 ⟨m, 0⟩))) 1100 = true := by
          simp [Float64.gtInt, Float64.div1024]; omega
        rw [filesizeLoop_step _ _ g3 (by norm_num), filesizeLoop_stop _ _ (Or.inr (by norm_num))]
        refine ⟨4, by norm_num, by norm_num, rfl, ?_, Or.inr rfl⟩
        intro j hj
        interval_cases j <;> omega
      · have g3 : Float64.gtInt
            (Float64.div1024 (Float64.div1024 (Float64.div1024 ⟨m, 0⟩))) 1100 = false := by
          simp [Float64.gtInt, Float64.div1024]; omega
        rw [filesizeLoop_stop _ _ (Or.inl g3)]
        refine ⟨3, by norm_num, by norm_num, rfl, ?_, Or.inl (by omega)⟩
        intro j hj
        interval_cases j <;> omega
    · have g2 : Float64.gtInt (Float64.div1024 (Float64.div1024 ⟨m, 0⟩)) 1100 = false := by
        simp [Float64.gtInt, Float64.div1024]; omega
      rw [filesizeLoop_stop _ _ (Or.inl g2)]
      refine ⟨2, by norm_num, by norm_num, rfl, ?_, Or.inl (by omega)⟩
      intro j hj
      interval_cases j <;> omega
  · have g1 : Float64.gtInt (Float64.div1024 ⟨m, 0⟩) 1100 = false := by
      simp [Float64.gtInt, Float64.div1024]; omega
    rw [filesizeLoop_stop _ _ (Or.inl g1)]
    refine ⟨1, by norm_num, by norm_num, rfl, ?_, Or.inl (by omega)⟩
    intro j hj
    interval_cases j
    omega

/-! ## Lemmas on `int` arithmetic and on the library functions -/

theorem wrap64_of_inInt64 (x : Int) (h : InInt64 x) : wrap64 x = x := by
  unfold InInt64 at h
  unfold wrap64
  omega

theorem wrap64_inInt64 (x : Int) : InInt64 (wrap64 x) := by
  unfold InInt64 wrap64
  omega

theorem wrap64_add_left (a c : Int) : wrap64 (wrap64 a + c) = wrap64 (a + c) := by
  unfold wrap64
  omega

theorem wrap64_scale (a c : Int) : wrap64 ((wrap64 a + c) * 1024) = wrap64 ((a + c) * 1024) := by
  unfold wrap64
  omega

theorem wrap64_mul_1024_dvd (a : Int) : (1024 : Int) ∣ wrap64 (a * 1024) := by
  unfold wrap64
  omega

theorem asciiSpace_lt (c : Nat) (h : strings.asciiSpace c = true) : c < 0x80 := by
  simp [strings.asciiSpace] at h
  omega

theorem trimSpaceEnd_blank (ws r : GoString) (h : IsBlank ws) :
    strings.trimSpaceEnd (ws ++ r) = strings.trimSpaceEnd r := by
  induction ws with
  | nil => rfl
  | cons c cs ih =>
    have hc : strings.asciiSpace c = true := h c (List.mem_cons_self _ _)
    have hlt : ¬ 0x80 ≤ c := by have := asciiSpace_lt c hc; omega
    have hcs : IsBlank cs := fun x hx => h x (List.mem_cons_of_mem _ hx)
    simp only [List.cons_append, strings.trimSpaceEnd, hlt, hc, if_true, if_false]
    exact ih hcs

theorem trimSpaceEnd_stop (c : Nat) (cs : GoString) (h1 : c < 0x80)
    (h2 : strings.asciiSpace c = false) : strings.trimSpaceEnd (c :: cs) = c :: cs := by
  have hlt : ¬ 0x80 ≤ c := by omega
  simp [strings.trimSpaceEnd, hlt, h2]

/-- On `ws1 ++ body ++ ws2` with blank `ws1`, `ws2` and a body that starts and
ends with an ASCII byte that is not a space, `strings.TrimSpace` returns the body. -/
theorem trimSpace_padded (ws1 ws2 : GoString) (a z : Nat) (mid : GoString)
    (h1 : IsBlank ws1) (h2 : IsBlank ws2)
    (ha : a < 0x80 ∧ strings.asciiSpace a = false)
    (hz : z < 0x80 ∧ strings.asciiSpace z = false)
    (hbody : ∃ init : GoString, a :: mid = init ++ [z]) :
    strings.TrimSpace (ws1 ++ (a :: mid) ++ ws2) = a :: mid := by
  induction ws1 with
  | nil =>
    obtain ⟨init, hinit⟩ := hbody
    have hlt : ¬ 0x80 ≤ a := by omega
    simp only [List.nil_append, List.cons_append, strings.TrimSpace, hlt, ha.2, if_false,
      Bool.false_eq_true]
    have hrev : (a :: (mid ++ ws2)).reverse = ws2.reverse ++ (z :: init.reverse) := by
      have : a :: (mid ++ ws2) = (init ++ [z]) ++ ws2 := by rw [← hinit]; rfl
      rw [this]
      simp
    have hblank : IsBlank ws2.reverse := fun x hx => h2 x (List.mem_reverse.mp hx)
    change List.reverse (strings.trimSpaceEnd (a :: (mid ++ ws2)).reverse) = a :: mid
    rw [hrev, trimSpaceEnd_blank _ _ hblank, trimSpaceEnd_stop z _ hz.1 hz.2]
    rw [hinit]
    simp
  | cons c cs ih =>
    have hc : strings.asciiSpace c = true := h1 c (List.mem_cons_self _ _)
    have hlt : ¬ 0x80 ≤ c := by have := asciiSpace_lt c hc; omega
    have hcs : IsBlank cs := fun x hx => h1 x (List.mem_cons_of_mem _ hx)
    simp only [List.cons_append, strings.TrimSpace, hlt, hc, if_true, if_false]
    have := ih hcs
    simpa using this

theorem digits_of_digits (ds : GoString) (h : ∀ c ∈ ds, 0x30 ≤ c ∧ c ≤ 0x39) (acc : Nat) :
    strconv.digits ds acc = some (ds.foldl (fun acc c => acc * 10 + (c - 0x30)) acc) := by
  induction ds generalizing acc with
  | nil => rfl
  | cons c cs ih =>
    have hc := h c (List.mem_cons_self _ _)
    have hcs : ∀ x ∈ cs, 0x30 ≤ x ∧ x ≤ 0x39 := fun x hx => h x (List.mem_cons_of_mem _ hx)
    simp only [strconv.digits, strconv.digit, hc, and_self, if_true, List.foldl_cons]
    exact ih hcs _

theorem atoi_digits (ds : GoString) (h : IsDigits ds) (neg : Bool) (v : Int)
    (hv : v = if neg then -(digitsValue ds : Int) else (digitsValue ds : Int))
    (hr : InInt64 v) :
    (if ds = [] then none
      else
        match strconv.digits ds 0 with
        | none => none
        | some w =>
          if InInt64 (if neg = true then -(w : Int) else (w : Int))
          then some (if neg = true then -(w : Int) else (w : Int)) else none) = some v := by
  have hd := digits_of_digits ds h.2 0
  rw [if_neg h.1, hd]
  simp only
  have : (if neg = true then -((ds.foldl (fun acc c => acc * 10 + (c - 0x30)) 0 : Nat) : Int)
      else ((ds.foldl (fun acc c => acc * 10 + (c - 0x30)) 0 : Nat) : Int)) = v := by
    rw [hv]; rfl
  rw [this, if_pos hr]

/-- On a decimal numeral that denotes a value of type `int`, `strconv.Atoi`
succeeds with that value. -/
theorem atoi_numeral (num : GoString) (v : Int) (h : IsNumeral num v) (hr : InInt64 v) :
    strconv.Atoi num = some v := by
  cases h with
  | unsigned ds hd =>
    obtain ⟨c, t, rfl⟩ := List.exists_cons_of_ne_nil hd.1
    have hc := hd.2 c (List.mem_cons_self _ _)
    have h1 : c ≠ 0x2d := by omega
    have h2 : c ≠ 0x2b := by omega
    simp only [strconv.Atoi, h1, h2, if_false]
    exact atoi_digits (c :: t) hd false _ (by simp) hr
  | plus ds hd =>
    simp only [strconv.Atoi, if_true, if_false, show ¬ ((0x2b : Nat) = 0x2d) by decide]
    exact atoi_digits ds hd false _ (by simp) hr
  | minus ds hd =>
    simp only [strconv.Atoi, if_true]
    exact atoi_digits ds hd true _ (by simp) hr

theorem digits_some (ds : GoString) :
    ∀ (acc w : Nat), strconv.digits ds acc = some w →
      (∀ c ∈ ds, 0x30 ≤ c ∧ c ≤ 0x39) ∧
        w = ds.foldl (fun acc c => acc * 10 + (c - 0x30)) acc := by
  induction ds with
  | nil =>
    intro acc w h
    simp only [strconv.digits, Option.some.injEq] at h
    exact ⟨by simp, h.symm⟩
  | cons c cs ih =>
    intro acc w h
    by_cases hc : 0x30 ≤ c ∧ c ≤ 0x39
    · simp only [strconv.digits, strconv.digit, hc, and_self, if_true] at h
      obtain ⟨h1, h2⟩ := ih _ w h
      refine ⟨?_, by simpa using h2⟩
      intro x hx
      rcases List.mem_cons.mp hx with rfl | hx
      · exact hc
      · exact h1 x hx
    · simp [strconv.digits, strconv.digit, hc] at h

theorem atoi_digits_some (ds : GoString) (neg : Bool) (v : Int)
    (h : (if ds = [] then none
      else
        match strconv.digits ds 0 with
        | none => none
        | some w =>
          if InInt64 (if neg = true then -(w : Int) else (w : Int))
          then some (if neg = true then -(w : Int) else (w : Int)) else none) = some v) :
    IsDigits ds ∧ v = (if neg = true then -(digitsValue ds : Int) else (digitsValue ds : Int)) ∧
      InInt64 v := by
  by_cases he : ds = []
  · simp [he] at h
  · rw [if_neg he] at h
    cases hd : strconv.digits ds 0 with
    | none => rw [hd] at h; simp at h
    | some w =>
      rw [hd] at h
      obtain ⟨h1, h2⟩ := digits_some ds 0 w hd
      have hw : w = digitsValue ds := h2
      subst hw
      cases neg with
      | false =>
        simp only [Bool.false_eq_true, if_false] at h ⊢
        by_cases hin : InInt64 (digitsValue ds : Int)
        · rw [if_pos hin] at h
          have hv := (Option.some.inj h).symm
          exact ⟨⟨he, h1⟩, hv, by rw [hv]; exact hin⟩
        · rw [if_neg hin] at h
          exact absurd h (by simp)
      | true =>
        simp only [if_true] at h ⊢
        by_cases hin : InInt64 (-(digitsValue ds : Int))
        · rw [if_pos hin] at h
          have hv := (Option.some.inj h).symm
          exact ⟨⟨he, h1⟩, hv, by rw [hv]; exact hin⟩
        · rw [if_neg hin] at h
          exact absurd h (by simp)

/-- What `strconv.Atoi` accepts: the decimal numerals, possibly signed, for
values of type `int`. -/
theorem atoi_some_iff (name : GoString) (v : Int) :
    strconv.Atoi name = some v ↔ IsNumeral name v ∧ InInt64 v := by
  constructor
  · intro h
    cases name with
    | nil => simp [strconv.Atoi] at h
    | cons c t =>
      simp only [strconv.Atoi] at h
      by_cases h1 : c = 0x2d
      · rw [if_pos h1] at h
        obtain ⟨hd, hv, hin⟩ := atoi_digits_some t true v h
        rw [h1, hv]
        exact ⟨IsNumeral.minus t hd, by rw [← hv]; exact hin⟩
      · rw [if_neg h1] at h
        by_cases h2 : c = 0x2b
        · rw [if_pos h2] at h
          obtain ⟨hd, hv, hin⟩ := atoi_digits_some t false v h
          rw [h2, hv]
          exact ⟨IsNumeral.plus t hd, by rw [← hv]; exact hin⟩
        · rw [if_neg h2] at h
          obtain ⟨hd, hv, hin⟩ := atoi_digits_some (c :: t) false v h
          rw [hv]
          exact ⟨IsNumeral.unsigned (c :: t) hd, by rw [← hv]; exact hin⟩
  · rintro ⟨h1, h2⟩
    exact atoi_numeral name v h1 h2

/-- A decimal numeral starts and ends with an ASCII byte that is not a space. -/
theorem numeral_shape (num : GoString) (v : Int) (h : IsNumeral num v) :
    ∃ (a z : Nat) (mid init : GoString), num = a :: mid ∧ a :: mid = init ++ [z] ∧
      (a < 0x80 ∧ strings.asciiSpace a = false) ∧ (z < 0x80 ∧ strings.asciiSpace z = false) := by
  have key : ∀ c : Nat, (0x30 ≤ c ∧ c ≤ 0x39) ∨ c = 0x2b ∨ c = 0x2d →
      c < 0x80 ∧ strings.asciiSpace c = false := by
    intro c hc
    refine ⟨by omega, ?_⟩
    simp [strings.asciiSpace]
    omega
  have digitsCase : ∀ ds : GoString, IsDigits ds →
      ∃ (z : Nat) (init : GoString), ds = init ++ [z] ∧ (0x30 ≤ z ∧ z ≤ 0x39) := by
    intro ds hd
    refine ⟨ds.getLast hd.1, ds.dropLast, (List.dropLast_append_getLast hd.1).symm, ?_⟩
    exact hd.2 _ (List.getLast_mem hd.1)
  cases h with
  | unsigned _ hd =>
    obtain ⟨z, init, hz, hzd⟩ := digitsCase num hd
    obtain ⟨c, t, rfl⟩ := List.exists_cons_of_ne_nil hd.1
    exact ⟨c, z, t, init, rfl, hz, key c (Or.inl (hd.2 c (List.mem_cons_self _ _))),
      key z (Or.inl hzd)⟩
  | plus ds hd =>
    obtain ⟨z, init, hz, hzd⟩ := digitsCase ds hd
    exact ⟨0x2b, z, ds, 0x2b :: init, rfl, by rw [hz]; rfl, key _ (Or.inr (Or.inl rfl)),
      key z (Or.inl hzd)⟩
  | minus ds hd =>
    obtain ⟨z, init, hz, hzd⟩ := digitsCase ds hd
    exact ⟨0x2d, z, ds, 0x2d :: init, rfl, by rw [hz]; rfl, key _ (Or.inr (Or.inr rfl)),
      key z (Or.inl hzd)⟩

theorem sliceStr_middle (pre mid suf : GoString) (hp : pre.length = 5) (hs : suf.length = 3) :
    sliceStr (pre ++ mid ++ suf) 5 (((pre ++ mid ++ suf).length : Int) - 3) = some mid := by
  have hlen : (pre ++ mid ++ suf).length = 5 + mid.length + 3 := by
    simp [hp, hs]; omega
  have hlen2 : (pre ++ mid).length = 5 + mid.length := by simp [hp]
  have hcond : (0 : Int) ≤ 5 ∧ (5 : Int) ≤ ((pre ++ mid ++ suf).length : Int) - 3 ∧
      ((pre ++ mid ++ suf).length : Int) - 3 ≤ ((pre ++ mid ++ suf).length : Nat) := by
    omega
  have hhi : (((pre ++ mid ++ suf).length : Int) - 3).toNat = (pre ++ mid).length := by
    omega
  unfold sliceStr
  rw [if_pos hcond, hhi, List.take_left']
  · have : (5 : Int).toNat = pre.length := by rw [hp]; rfl
    rw [this, List.drop_left']
    rfl
  · rfl

theorem hasPrefix_append (pre rest : GoString) : strings.HasPrefix (pre ++ rest) pre = true := by
  unfold strings.HasPrefix
  rw [List.isPrefixOf_iff_prefix]
  exact List.prefix_append pre rest

/-- One iteration of the loop of `readSwapSize` on a well-formed `Swap:` line. -/
theorem readSwapSizeLoop_swapLine (line : GoString) (v : Int) (rest : List GoString)
    (total : Int) (h : IsSwapLine line v) (hr : InInt64 v) :
    readSwapSizeLoop (line :: rest) total = readSwapSizeLoop rest (wrap64 (total + v)) := by
  obtain ⟨ws1, num, ws2, suffix, rfl, hw1, hnum, hw2, hsuf⟩ := h
  obtain ⟨a, z, mid, init, rfl, hinit, ha, hz⟩ := numeral_shape num v hnum
  have hpre : strings.HasPrefix (ascii "Swap:" ++ ws1 ++ (a :: mid) ++ ws2 ++ suffix)
      (ascii "Swap:") = true := by
    have := hasPrefix_append (ascii "Swap:") (ws1 ++ (a :: mid) ++ ws2 ++ suffix)
    simpa [List.append_assoc] using this
  have hslice := sliceStr_middle (ascii "Swap:") (ws1 ++ (a :: mid) ++ ws2) suffix rfl hsuf
  have hline : ascii "Swap:" ++ (ws1 ++ (a :: mid) ++ ws2) ++ suffix
      = ascii "Swap:" ++ ws1 ++ (a :: mid) ++ ws2 ++ suffix := by
    simp [List.append_assoc]
  rw [hline] at hslice
  have htrim := trimSpace_padded ws1 ws2 a z mid hw1 hw2 ha hz ⟨init, hinit⟩
  have hatoi := atoi_numeral (a :: mid) v hnum hr
  rw [readSwapSizeLoop, if_pos hpre, hslice]
  simp only [htrim, hatoi]

theorem readSwapSizeLoop_other (line : GoString) (rest : List GoString) (total : Int)
    (h : strings.HasPrefix line (ascii "Swap:") = false) :
    readSwapSizeLoop (line :: rest) total = readSwapSizeLoop rest total := by
  rw [readSwapSizeLoop, h]
  simp

theorem swapLines_cons_pos (line : GoString) (rest : List GoString)
    (h : strings.HasPrefix line (ascii "Swap:") = true) :
    swapLines (line :: rest) = line :: swapLines rest := by
  simp [swapLines, h]

theorem swapLines_cons_neg (line : GoString) (rest : List GoString)
    (h : strings.HasPrefix line (ascii "Swap:") = false) :
    swapLines (line :: rest) = swapLines rest := by
  simp [swapLines, h]

/-- The loop of `readSwapSize` on well-formed lines: the total is the sum of
the values, reduced to the range of `int`. -/
theorem readSwapSizeLoop_sum (value : GoString → Int) (lines : List GoString) :
    ∀ total : Int,
      (∀ line ∈ swapLines lines, IsSwapLine line (value line) ∧ InInt64 (value line)) →
      readSwapSizeLoop lines total
        = Outcome.ok (wrap64 ((total + ((swapLines lines).map value).sum) * 1024)) := by
  induction lines with
  | nil => intro total _; simp [readSwapSizeLoop, swapLines]
  | cons line rest ih =>
    intro total hform
    cases hp : strings.HasPrefix line (ascii "Swap:") with
    | true =>
      rw [swapLines_cons_pos line rest hp] at hform ⊢
      obtain ⟨hline, hrange⟩ := hform line (List.mem_cons_self _ _)
      rw [readSwapSizeLoop_swapLine line (value line) rest total hline hrange,
        ih _ (fun l hl => hform l (List.mem_cons_of_mem _ hl)), wrap64_scale]
      simp only [List.map_cons, List.sum_cons]
      rw [add_assoc]
    | false =>
      rw [swapLines_cons_neg line rest hp] at hform ⊢
      rw [readSwapSizeLoop_other line rest total hp, ih _ hform]

theorem sliceStr_of_long (line : GoString) (h : 8 ≤ line.length) :
    sliceStr line 5 ((line.length : Int) - 3) = some ((line.take (line.length - 3)).drop 5) := by
  have hcond : (0 : Int) ≤ 5 ∧ (5 : Int) ≤ (line.length : Int) - 3 ∧
      (line.length : Int) - 3 ≤ (line.length : Nat) := by omega
  have hhi : ((line.length : Int) - 3).toNat = line.length - 3 := by omega
  unfold sliceStr
  rw [if_pos hcond, hhi]
  rfl

/-- The loop of `readSwapSize` returns an error as soon as one `Swap:` line has
a numeric field that does not parse, when no `Swap:` line is shorter than 8 bytes. -/
theorem readSwapSizeLoop_bad (lines : List GoString) :
    ∀ total : Int,
      (∀ line ∈ swapLines lines, 8 ≤ line.length) →
      (∃ line ∈ swapLines lines, strconv.Atoi (numericField line) = none) →
      readSwapSizeLoop lines total = Outcome.error := by
  induction lines with
  | nil => intro total _ hbad; obtain ⟨l, hl, _⟩ := hbad; simp [swapLines] at hl
  | cons line rest ih =>
    intro total hlen hbad
    cases hp : strings.HasPrefix line (ascii "Swap:") with
    | true =>
      rw [swapLines_cons_pos line rest hp] at hlen hbad
      have h8 := hlen line (List.mem_cons_self _ _)
      rw [readSwapSizeLoop, if_pos hp, sliceStr_of_long line h8]
      cases ha : strconv.Atoi (strings.TrimSpace ((line.take (line.length - 3)).drop 5)) with
      | none => simp only [ha]
      | some size =>
        simp only [ha]
        apply ih _ (fun l hl => hlen l (List.mem_cons_of_mem _ hl))
        obtain ⟨l, hl, hbadl⟩ := hbad
        rcases List.mem_cons.mp hl with heq | hmem
        · subst heq
          unfold numericField at hbadl
          rw [ha] at hbadl
          exact absurd hbadl (by simp)
        · exact ⟨l, hmem, hbadl⟩
    | false =>
      rw [swapLines_cons_neg line rest hp] at hlen hbad
      rw [readSwapSizeLoop_other line rest total hp]
      exact ih _ hlen hbad

/-- Whatever the loop of `readSwapSize` returns is a multiple of 1024 in the range of `int`. -/
theorem readSwapSizeLoop_multiple (lines : List GoString) :
    ∀ (total v : Int), readSwapSizeLoop lines total = Outcome.ok v →
      (1024 : Int) ∣ v ∧ InInt64 v := by
  induction lines with
  | nil =>
    intro total v h
    simp only [readSwapSizeLoop, Outcome.ok.injEq] at h
    subst h
    exact ⟨wrap64_mul_1024_dvd total, wrap64_inInt64 _⟩
  | cons line rest ih =>
    intro total v h
    rw [readSwapSizeLoop] at h
    split at h
    · split at h
      · exact absurd h (by simp)
      · split at h
        · exact absurd h (by simp)
        · exact ih _ v h
    · exact ih _ v h

theorem sliceStr_some (line sub : GoString)
    (h : sliceStr line 5 ((line.length : Int) - 3) = some sub) :
    sub = (line.take (line.length - 3)).drop 5 := by
  unfold sliceStr at h
  split at h
  · have hhi : ((line.length : Int) - 3).toNat = line.length - 3 := by omega
    rw [hhi] at h
    exact (Option.some.inj h).symm
  · exact absurd h (by simp)

/-- When the loop of `readSwapSize` succeeds, the result is 1024 times the
running total plus the integers read from the `Swap:` lines, in `int` arithmetic. -/
theorem readSwapSizeLoop_value (lines : List GoString) :
    ∀ (total v : Int), readSwapSizeLoop lines total = Outcome.ok v →
      v = wrap64 ((total + (parsedFields lines).sum) * 1024) := by
  induction lines with
  | nil =>
    intro total v h
    simp only [readSwapSizeLoop, Outcome.ok.injEq] at h
    simp [parsedFields, swapLines, h]
  | cons line rest ih =>
    intro total v h
    cases hp : strings.HasPrefix line (ascii "Swap:") with
    | false =>
      rw [readSwapSizeLoop_other line rest total hp] at h
      have := ih total v h
      simpa [parsedFields, swapLines_cons_neg line rest hp] using this
    | true =>
      rw [readSwapSizeLoop, if_pos hp] at h
      cases hs : sliceStr line 5 ((line.length : Int) - 3) with
      | none => rw [hs] at h; exact absurd h (by simp)
      | some sub =>
        rw [hs] at h
        simp only at h
        have hsub := sliceStr_some line sub hs
        cases ha : strconv.Atoi (strings.TrimSpace sub) with
        | none => rw [ha] at h; exact absurd h (by simp)
        | some size =>
          rw [ha] at h
          simp only at h
          have hv := ih _ v h
          have hfield : strconv.Atoi (numericField line) = some size := by
            unfold numericField
            rw [← hsub]
            exact ha
          have hpf : parsedFields (line :: rest) = size :: parsedFields rest := by
            simp [parsedFields, swapLines_cons_pos line rest hp, List.filterMap_cons, hfield]
          rw [hpf, List.sum_cons, hv, wrap64_scale, add_assoc]

/-! ## Lemmas on `bufio.Scanner` -/

theorem indexByte_none (c : Nat) (l : GoString) (h : c ∉ l) : bytes.IndexByte l c = none := by
  induction l with
  | nil => rfl
  | cons b bs ih =>
    have hb : b ≠ c := fun e => h (e ▸ List.mem_cons_self _ _)
    have hbs : c ∉ bs := fun e => h (List.mem_cons_of_mem _ e)
    simp [bytes.IndexByte, hb, ih hbs]

theorem indexByte_append (c : Nat) (l r : GoString) (h : c ∉ l) :
    bytes.IndexByte (l ++ c :: r) c = some l.length := by
  induction l with
  | nil => simp [bytes.IndexByte]
  | cons b bs ih =>
    have hb : b ≠ c := fun e => h (e ▸ List.mem_cons_self _ _)
    have hbs : c ∉ bs := fun e => h (List.mem_cons_of_mem _ e)
    simp [bytes.IndexByte, hb, ih hbs]

/-- A byte string either holds no line feed or splits at its first line feed. -/
theorem split_at_first (c : Nat) (s : GoString) :
    c ∉ s ∨ ∃ l r : GoString, s = l ++ c :: r ∧ c ∉ l := by
  induction s with
  | nil => left; simp
  | cons b bs ih =>
    by_cases hb : b = c
    · right; exact ⟨[], bs, by simp [hb], by simp⟩
    · rcases ih with h | ⟨l, r, rfl, hl⟩
      · left
        intro hm
        rcases List.mem_cons.mp hm with e | e
        · exact hb e.symm
        · exact h e
      · right
        refine ⟨b :: l, r, by simp, ?_⟩
        intro hm
        rcases List.mem_cons.mp hm with e | e
        · exact hb e.symm
        · exact hl e

theorem scanLines_line (l r : GoString) (atEOF : Bool) (h : 0x0a ∉ l) :
    bufio.ScanLines (l ++ 0x0a :: r) atEOF = (l.length + 1, some (bufio.dropCR l)) := by
  unfold bufio.ScanLines
  have hne : (l ++ 0x0a :: r).isEmpty = false := by cases l <;> rfl
  rw [hne, Bool.and_false, indexByte_append 0x0a l r h]
  simp

theorem scanLines_last (l : GoString) (h : 0x0a ∉ l) (hne : l ≠ []) :
    bufio.ScanLines l true = (l.length, some (bufio.dropCR l)) := by
  unfold bufio.ScanLines
  have he : l.isEmpty = false := by cases l with
    | nil => exact absurd rfl hne
    | cons _ _ => rfl
  rw [he, Bool.and_false, indexByte_none 0x0a l h]
  simp

theorem scanLines_more (l : GoString) (h : 0x0a ∉ l) :
    bufio.ScanLines l false = (0, none) := by
  unfold bufio.ScanLines
  rw [indexByte_none 0x0a l h]
  simp

theorem scan_nil : bufio.Scanner.Scan [] = none := by decide

/-- A line that ends with a line feed within the first `MaxScanTokenSize` bytes
is the next token. -/
theorem scan_line (l r : GoString) (h : 0x0a ∉ l) (hlen : l.length < bufio.MaxScanTokenSize) :
    bufio.Scanner.Scan (l ++ 0x0a :: r) = some (bufio.dropCR l, r) := by
  obtain ⟨k, hk⟩ : ∃ k, bufio.MaxScanTokenSize = l.length + (k + 1) :=
    ⟨bufio.MaxScanTokenSize - l.length - 1, by omega⟩
  have hw : (l ++ 0x0a :: r).take bufio.MaxScanTokenSize = l ++ 0x0a :: r.take k := by
    rw [hk, List.take_append, List.take_succ_cons]
  have hd : (l ++ 0x0a :: r).drop (l.length + 1) = r := by
    rw [List.drop_append, List.drop_one, List.tail_cons]
  unfold bufio.Scanner.Scan
  simp only [hw, scanLines_line l (r.take k) _ h, hd]

/-- A last line without a line feed, shorter than `MaxScanTokenSize`, is the last token. -/
theorem scan_last (l : GoString) (h : 0x0a ∉ l) (hne : l ≠ [])
    (hlen : l.length < bufio.MaxScanTokenSize) :
    bufio.Scanner.Scan l = some (bufio.dropCR l, []) := by
  unfold bufio.Scanner.Scan
  simp only [List.take_of_length_le (Nat.le_of_lt hlen), decide_eq_true hlen,
    scanLines_last l h hne, List.drop_length]

/-- When the next `MaxScanTokenSize` bytes hold no line feed, `Scan` returns `false`. -/
theorem scan_tooLong (l r : GoString) (h : 0x0a ∉ l) (hlen : bufio.MaxScanTokenSize ≤ l.length) :
    bufio.Scanner.Scan (l ++ r) = none := by
  have hw : (l ++ r).take bufio.MaxScanTokenSize = l.take bufio.MaxScanTokenSize :=
    List.take_append_of_le_length hlen
  have hno : 0x0a ∉ l.take bufio.MaxScanTokenSize := fun e => h (List.mem_of_mem_take e)
  have hlt : ¬ (l ++ r).length < bufio.MaxScanTokenSize := by
    rw [List.length_append]; omega
  unfold bufio.Scanner.Scan
  simp only [hw, decide_eq_false hlt, scanLines_more _ hno]

theorem rawLines_line (l r : GoString) (h : 0x0a ∉ l) :
    rawLines (l ++ 0x0a :: r) = l :: rawLines r := by
  induction l with
  | nil => simp [rawLines]
  | cons b bs ih =>
    have hb : b ≠ 0x0a := fun e => h (e ▸ List.mem_cons_self _ _)
    have hbs : 0x0a ∉ bs := fun e => h (List.mem_cons_of_mem _ e)
    simp [rawLines, hb, ih hbs]

theorem rawLines_last (l : GoString) (h : 0x0a ∉ l) (hne : l ≠ []) : rawLines l = [l] := by
  induction l with
  | nil => exact absurd rfl hne
  | cons b bs ih =>
    have hb : b ≠ 0x0a := fun e => h (e ▸ List.mem_cons_self _ _)
    have hbs : 0x0a ∉ bs := fun e => h (List.mem_cons_of_mem _ e)
    cases bs with
    | nil => simp [rawLines, hb]
    | cons d ds =>
      have e := ih hbs (by simp)
      rw [rawLines, if_neg hb, e]

theorem tokensFuel_nil (fuel : Nat) : bufio.Scanner.tokensFuel fuel [] = [] := by
  cases fuel with
  | zero => rfl
  | succ n => simp [bufio.Scanner.tokensFuel, scan_nil]

/-- The scanner yields the lines of the text that come before the first line of
`MaxScanTokenSize` bytes or more, each without its trailing carriage return;
any fuel from the length of the text on is enough. -/
theorem tokensFuel_eq_linesRead (fuel : Nat) :
    ∀ content : GoString, content.length ≤ fuel →
      bufio.Scanner.tokensFuel fuel content = linesRead content := by
  induction fuel with
  | zero =>
    intro content h
    have : content = [] := List.length_eq_zero.mp (by omega)
    subst this
    rfl
  | succ n ih =>
    intro content h
    rcases split_at_first 0x0a content with hno | ⟨l, r, rfl, hl⟩
    · by_cases hne : content = []
      · subst hne; rw [tokensFuel_nil]; rfl
      · by_cases hlen : content.length < bufio.MaxScanTokenSize
        · simp [bufio.Scanner.tokensFuel, scan_last content hno hne hlen, tokensFuel_nil,
            linesRead, rawLines_last content hno hne, hlen]
        · have hs := scan_tooLong content [] hno (by omega)
          rw [List.append_nil] at hs
          simp [bufio.Scanner.tokensFuel, hs, linesRead, rawLines_last content hno hne, hlen]
    · have hr : r.length ≤ n := by
        rw [List.length_append, List.length_cons] at h; omega
      by_cases hlen : l.length < bufio.MaxScanTokenSize
      · have := ih r hr
        simp [bufio.Scanner.tokensFuel, scan_line l r hl hlen, this, linesRead,
          rawLines_line l r hl, hlen]
      · simp [bufio.Scanner.tokensFuel, scan_tooLong l (0x0a :: r) hl (by omega), linesRead,
          rawLines_line l r hl, hlen]

theorem tokens_eq_linesRead (content : GoString) :
    bufio.Scanner.tokens content = linesRead content :=
  tokensFuel_eq_linesRead content.length content (Nat.le_refl _)

theorem linesRead_nil : linesRead [] = [] := rfl

/-- A first line that fits the buffer is read, and reading goes on after it. -/
theorem linesRead_line (l r : GoString) (h : 0x0a ∉ l)
    (hlen : l.length < bufio.MaxScanTokenSize) :
    linesRead (l ++ 0x0a :: r) = bufio.dropCR l :: linesRead r := by
  simp [linesRead, rawLines_line l r h, hlen]

/-- Nothing is read from a line of `MaxScanTokenSize` bytes or more on. -/
theorem linesRead_tooLong (l r : GoString) (h : 0x0a ∉ l)
    (hlen : bufio.MaxScanTokenSize ≤ l.length) :
    linesRead (l ++ 0x0a :: r) = [] := by
  have hn : ¬ l.length < bufio.MaxScanTokenSize := by omega
  simp [linesRead, rawLines_line l r h, hn]

theorem textLines_line (l r : GoString) (h : 0x0a ∉ l) :
    textLines (l ++ 0x0a :: r) = bufio.dropCR l :: textLines r := by
  simp [textLines, rawLines_line l r h]

theorem dropCR_of_no_cr (l : GoString) (h : 0x0d ∉ l) : bufio.dropCR l = l := by
  unfold bufio.dropCR
  rw [if_neg]
  intro e
  exact h (List.mem_of_getLast?_eq_some e)

theorem not_mem_replicate (c x : Nat) (n : Nat) (h : c ≠ x) : c ∉ List.replicate n x := by
  intro e
  exact h (List.eq_of_mem_replicate e)

/-- The shape of a text of three lines, each ended by a line feed. -/
theorem three_lines (l1 l2 l3 : GoString) :
    (l1 ++ [0x0a]) ++ l2 ++ (0x0a :: (l3 ++ [0x0a]))
      = l1 ++ 0x0a :: (l2 ++ 0x0a :: (l3 ++ 0x0a :: [])) := by
  simp only [List.append_assoc, List.singleton_append, List.cons_append, List.nil_append]

/-- A last line without line feed that fits the buffer is read. -/
theorem linesRead_last (l : GoString) (h : 0x0a ∉ l) (hne : l ≠ [])
    (hlen : l.length < bufio.MaxScanTokenSize) : linesRead l = [bufio.dropCR l] := by
  simp [linesRead, rawLines_last l h hne, hlen]

theorem linesRead_tooLong_last (l : GoString) (h : 0x0a ∉ l)
    (hlen : bufio.MaxScanTokenSize ≤ l.length) : linesRead l = [] := by
  have hn : ¬ l.length < bufio.MaxScanTokenSize := by omega
  have hne : l ≠ [] := by
    intro e
    rw [e] at hlen
    exact absurd hlen (by decide)
  simp [linesRead, rawLines_last l h hne, hn]

/-- The limit of the scanner: a line of 65535 bytes is read, with or without a
line feed after it; at a line of 65536 bytes the scanner stops. -/
theorem scanner_limit :
    bufio.Scanner.tokens (List.replicate 65535 0x78 ++ 0x0a :: ascii "b")
        = [List.replicate 65535 0x78, ascii "b"] ∧
      bufio.Scanner.tokens (List.replicate 65536 0x78 ++ 0x0a :: ascii "b") = [] ∧
      bufio.Scanner.tokens (List.replicate 65535 0x78) = [List.replicate 65535 0x78] ∧
      bufio.Scanner.tokens (List.replicate 65536 0x78) = [] := by
  have hx : ∀ n, (0x0a : Nat) ∉ List.replicate n 0x78 := fun n =>
    not_mem_replicate _ _ n (by decide)
  have hcr : ∀ n, (0x0d : Nat) ∉ List.replicate n 0x78 := fun n =>
    not_mem_replicate _ _ n (by decide)
  have h1 : (List.replicate 65535 0x78).length < bufio.MaxScanTokenSize := by
    rw [List.length_replicate]; decide
  have h2 : bufio.MaxScanTokenSize ≤ (List.replicate 65536 0x78).length := by
    rw [List.length_replicate]; decide
  have hne : List.replicate 65535 (0x78 : Nat) ≠ [] := by
    intro e
    have := congrArg List.length e
    rw [List.length_replicate] at this
    exact absurd this (by decide)
  have hb : linesRead (ascii "b") = [ascii "b"] := by decide
  refine ⟨?_, ?_, ?_, ?_⟩
  · rw [tokens_eq_linesRead, linesRead_line _ _ (hx _) h1, dropCR_of_no_cr _ (hcr _), hb]
  · rw [tokens_eq_linesRead, linesRead_tooLong _ _ (hx _) h2]
  · rw [tokens_eq_linesRead, linesRead_last _ (hx _) hne h1, dropCR_of_no_cr _ (hcr _)]
  · rw [tokens_eq_linesRead, linesRead_tooLong_last _ (hx _) h2]

/-- When no line is too long for the buffer, every line of the text is read. -/
theorem linesRead_of_short (content : GoString)
    (h : ∀ line ∈ rawLines content, line.length < bufio.MaxScanTokenSize) :
    linesRead content = textLines content := by
  unfold linesRead textLines
  rw [List.takeWhile_eq_self_iff.mpr (fun l hl => decide_eq_true (h l hl))]

/-! ## Lemmas on the loop of `getSwapInfoList` -/

/-- A property of the records that holds for what the two reads return holds
for every record of the list built. -/
theorem getSwapInfoListLoop_forall (P : SwapInfo → Prop) (rdComm : Int → Outcome GoString)
    (rdSwap : Int → Outcome Int)
    (hP : ∀ pid comm size, rdComm pid = Outcome.ok comm → rdSwap pid = Outcome.ok size →
      P ⟨pid, comm, size⟩)
    (names : List GoString) :
    ∀ acc out : List SwapInfo, (∀ x ∈ acc, P x) →
      getSwapInfoListLoop rdComm rdSwap names acc = Outcome.ok out → ∀ x ∈ out, P x := by
  induction names with
  | nil =>
    intro acc out hacc h
    simp only [getSwapInfoListLoop, Outcome.ok.injEq] at h
    subst h
    exact hacc
  | cons name rest ih =>
    intro acc out hacc h
    rw [getSwapInfoListLoop] at h
    cases hn : strconv.Atoi name with
    | none => rw [hn] at h; exact ih acc out hacc h
    | some pid =>
      rw [hn] at h
      simp only at h
      cases hc : rdComm pid with
      | error => rw [hc] at h; exact ih acc out hacc h
      | panic => rw [hc] at h; exact absurd h (by simp)
      | fatal => rw [hc] at h; exact absurd h (by simp)
      | ok comm =>
        rw [hc] at h
        simp only at h
        cases hs : rdSwap pid with
        | error => rw [hs] at h; exact ih acc out hacc h
        | panic => rw [hs] at h; exact absurd h (by simp)
        | fatal => rw [hs] at h; exact absurd h (by simp)
        | ok size =>
          rw [hs] at h
          refine ih _ out ?_ h
          intro x hx
          rcases List.mem_append.mp hx with hx | hx
          · exact hacc x hx
          · rw [List.mem_singleton.mp hx]
            exact hP pid comm size hc hs

/-- Every record of the list built carries a pid that `strconv.Atoi` read from
one of the entry names. -/
theorem getSwapInfoListLoop_pid (rdComm : Int → Outcome GoString) (rdSwap : Int → Outcome Int)
    (names : List GoString) :
    ∀ acc out : List SwapInfo,
      getSwapInfoListLoop rdComm rdSwap names acc = Outcome.ok out →
      ∀ x ∈ out, x ∈ acc ∨ ∃ name ∈ names, strconv.Atoi name = some x.pid := by
  induction names with
  | nil =>
    intro acc out h x hx
    simp only [getSwapInfoListLoop, Outcome.ok.injEq] at h
    subst h
    exact Or.inl hx
  | cons name rest ih =>
    intro acc out h x hx
    have lift : (x ∈ acc ∨ ∃ n ∈ rest, strconv.Atoi n = some x.pid) →
        (x ∈ acc ∨ ∃ n ∈ name :: rest, strconv.Atoi n = some x.pid) := by
      rintro (h1 | ⟨n, hn, hv⟩)
      · exact Or.inl h1
      · exact Or.inr ⟨n, List.mem_cons_of_mem _ hn, hv⟩
    rw [getSwapInfoListLoop] at h
    cases hn : strconv.Atoi name with
    | none => rw [hn] at h; exact lift (ih acc out h x hx)
    | some pid =>
      rw [hn] at h
      simp only at h
      cases hc : rdComm pid with
      | error => rw [hc] at h; exact lift (ih acc out h x hx)
      | panic => rw [hc] at h; exact absurd h (by simp)
      | fatal => rw [hc] at h; exact absurd h (by simp)
      | ok comm =>
        rw [hc] at h
        simp only at h
        cases hs : rdSwap pid with
        | error => rw [hs] at h; exact lift (ih acc out h x hx)
        | panic => rw [hs] at h; exact absurd h (by simp)
        | fatal => rw [hs] at h; exact absurd h (by simp)
        | ok size =>
          rw [hs] at h
          rcases ih _ out h x hx with h1 | h1
          · rcases List.mem_append.mp h1 with h2 | h2
            · exact Or.inl h2
            · rw [List.mem_singleton.mp h2]
              exact Or.inr ⟨name, List.mem_cons_self _ _, hn⟩
          · exact lift (Or.inr h1)

/-- An entry name that `strconv.Atoi` rejects leaves the loop of
`getSwapInfoList` as if the entry were not there. -/
theorem getSwapInfoListLoop_skip (rdComm : Int → Outcome GoString) (rdSwap : Int → Outcome Int)
    (name : GoString) (hname : strconv.Atoi name = none) (pre post : List GoString) :
    ∀ acc : List SwapInfo,
      getSwapInfoListLoop rdComm rdSwap (pre ++ name :: post) acc
        = getSwapInfoListLoop rdComm rdSwap (pre ++ post) acc := by
  induction pre with
  | nil => intro acc; simp [getSwapInfoListLoop, hname]
  | cons n rest ih =>
    intro acc
    simp only [List.cons_append, getSwapInfoListLoop]
    cases strconv.Atoi n with
    | none => exact ih acc
    | some pid =>
      simp only
      cases rdComm pid with
      | error => exact ih acc
      | panic => rfl
      | fatal => rfl
      | ok comm =>
        simp only
        cases rdSwap pid with
        | error => exact ih acc
        | panic => rfl
        | fatal => rfl
        | ok size => exact ih _

/-! ## `sanitizeComm` -/

theorem replaceScan_single (o n : Nat) (s : GoString) :
    bytes.replaceScan [o] [n] 0 s = s.map fun c => if c = o then n else c := by
  induction s with
  | nil => rfl
  | cons c cs ih =>
    by_cases h : c = o
    · subst h
      simp [bytes.replaceScan, ih]
    · have h2 : ¬ o = c := fun e => h e.symm
      simp [bytes.replaceScan, ih, h, h2]

/-- The function `bytes.TrimRight(s, "\x00")` splits `s` into the result, which
does not end with a NUL, and the run of NULs removed. -/
theorem trimRight_nul (s : GoString) :
    ∃ k : Nat, s = bytes.TrimRight s [0x00] ++ List.replicate k 0x00 ∧
      (bytes.TrimRight s [0x00]).getLast? ≠ some 0x00 := by
  have hsplit := List.takeWhile_append_dropWhile (fun c => [0x00].contains c) s.reverse
  refine ⟨(s.reverse.takeWhile fun c => [0x00].contains c).length, ?_, ?_⟩
  · have hrep : (s.reverse.takeWhile fun c => [0x00].contains c).reverse
        = List.replicate (s.reverse.takeWhile fun c => [0x00].contains c).length 0x00 := by
      rw [List.eq_replicate_iff]
      refine ⟨by simp, ?_⟩
      intro c hc
      have := List.mem_takeWhile_imp (List.mem_reverse.mp hc)
      simpa using this
    have h2 := congrArg List.reverse hsplit
    rw [List.reverse_append, List.reverse_reverse] at h2
    unfold bytes.TrimRight
    rw [← hrep]
    exact h2.symm
  · unfold bytes.TrimRight
    rw [List.getLast?_reverse]
    intro hhead
    have hne : s.reverse.dropWhile (fun c => [0x00].contains c) ≠ [] := by
      intro e; rw [e] at hhead; simp at hhead
    have hnot := List.head_dropWhile_not (fun c => [0x00].contains c) s.reverse hne
    rw [List.head?_eq_head hne] at hhead
    rw [Option.some.inj hhead] at hnot
    simp at hnot

/-! ## `filesize` never panics; the print loop of `Swapview` -/

theorem filesizeLoop_unit_le (k : Nat) :
    ∀ (left : Float64) (unit : Nat), 4 - unit = k → unit ≤ 4 →
      (filesizeLoop left unit).2 ≤ 4 := by
  induction k with
  | zero =>
    intro left unit hk hu
    rw [filesizeLoop_stop left unit (Or.inr (by omega))]
    exact hu
  | succ k ih =>
    intro left unit hk hu
    cases hg : left.gtInt 1100 with
    | false => rw [filesizeLoop_stop left unit (Or.inl hg)]; exact hu
    | true =>
      rw [filesizeLoop_step left unit hg (by omega)]
      exact ih _ _ (by omega) (by omega)

/-- The index `unit - 1` is always inside the table `UNIT`: `filesize` returns a string. -/
theorem filesize_ok (n : Int) : ∃ sz : GoString, filesize n = Outcome.ok sz := by
  have hle := filesizeLoop_unit_le 4 (Float64.ofInt n) 0 rfl (by norm_num)
  unfold filesize
  by_cases h0 : (filesizeLoop (Float64.ofInt n) 0).2 = 0
  · exact ⟨fmtInt n ++ ascii "B", by simp [h0]⟩
  · have hlt : (filesizeLoop (Float64.ofInt n) 0).2 - 1 < UNIT.length := by
      simp only [UNIT, List.length_cons, List.length_nil]; omega
    refine ⟨(filesizeLoop (Float64.ofInt n) 0).1.fmtF1
      ++ UNIT[(filesizeLoop (Float64.ofInt n) 0).2 - 1] :: ascii "iB", ?_⟩
    simp only [h0, if_false, List.getElem?_eq_getElem hlt]

theorem sum_filter_isPrinted (l : List SwapInfo) :
    ((l.filter isPrinted).map fun i => i.size).sum = (l.map fun i => i.size).sum := by
  induction l with
  | nil => rfl
  | cons a t ih =>
    by_cases h : a.size = 0
    · simp [List.filter, isPrinted, h, ih]
    · simp [List.filter, isPrinted, h, ih]

/-- The print loop of `Swapview`: one row for each record of non-zero size, in
order, and the total of their sizes in `int` arithmetic. -/
theorem SwapviewLoop_spec (l : List SwapInfo) :
    ∀ total : Int, InInt64 total →
      ∃ rows : List GoString,
        SwapviewLoop l total
          = Outcome.ok (rows, wrap64 (total + ((l.filter isPrinted).map fun i => i.size).sum)) ∧
        List.Forall₂ IsRowOf (l.filter isPrinted) rows := by
  induction l with
  | nil =>
    intro total ht
    exact ⟨[], by simp [SwapviewLoop, wrap64_of_inInt64 total ht], List.Forall₂.nil⟩
  | cons a t ih =>
    intro total ht
    by_cases h : a.size = 0
    · obtain ⟨rows, h1, h2⟩ := ih total ht
      refine ⟨rows, ?_, ?_⟩
      · simp [SwapviewLoop, h, h1, List.filter, isPrinted]
      · simpa [List.filter, isPrinted, h] using h2
    · obtain ⟨sz, hsz⟩ := filesize_ok a.size
      obtain ⟨rows, h1, h2⟩ := ih (wrap64 (total + a.size)) (wrap64_inInt64 _)
      have hf : (a :: t).filter isPrinted = a :: t.filter isPrinted := by
        simp [List.filter, isPrinted, h]
      refine ⟨rowLine a sz :: rows, ?_, ?_⟩
      · rw [hf]
        simp only [SwapviewLoop, h, if_false, hsz, h1, List.map_cons, List.sum_cons]
        rw [wrap64_add_left, add_assoc]
      · rw [hf]
        exact List.Forall₂.cons ⟨sz, hsz, rfl⟩ h2

/-- What `Swapview` prints for a list of records: header, rows for the records
of non-zero size in sorted order, and the total line. -/
theorem SwapviewReport_spec (S : SortSlice) (lst : List SwapInfo) :
    ∃ (rows : List GoString) (sz : GoString),
      SwapviewReport S lst = Outcome.ok (headerLine :: rows ++ [totalLine sz]) ∧
      List.Forall₂ IsRowOf ((S.sort lst).filter isPrinted) rows ∧
      filesize (wrap64 (((S.sort lst).filter isPrinted).map fun i => i.size).sum) = Outcome.ok sz := by
  obtain ⟨rows, h1, h2⟩ := SwapviewLoop_spec (S.sort lst) 0 (by unfold InInt64; norm_num)
  rw [zero_add] at h1
  obtain ⟨sz, hsz⟩ :=
    filesize_ok (wrap64 (((S.sort lst).filter isPrinted).map fun i => i.size).sum)
  refine ⟨rows, sz, ?_, h2, hsz⟩
  simp only [SwapviewReport, h1, hsz]

theorem sorted_filter_isPrinted (S : SortSlice) (lst : List SwapInfo) :
    ((S.sort lst).filter isPrinted).Perm (lst.filter isPrinted) ∧
      ((S.sort lst).filter isPrinted).Pairwise fun a b => a.size ≤ b.size := by
  refine ⟨(S.perm lst).filter isPrinted, ?_⟩
  have h : (S.sort lst).Pairwise fun a b => a.size ≤ b.size :=
    (S.sorted lst).imp fun hab => not_lt.mp hab
  exact h.sublist (List.filter_sublist _)

/-- Three records of sizes 0, 1024 and 1048576, in any order: the records
printed are the second and the third, in this order. -/
theorem sorted_filter_three (S : SortSlice) (lst : List SwapInfo) (a b c : SwapInfo)
    (ha : a.size = 0) (hb : b.size = 1024) (hc : c.size = 1048576) (hl : lst.Perm [a, b, c]) :
    (S.sort lst).filter isPrinted = [b, c] := by
  obtain ⟨hperm, hsorted⟩ := sorted_filter_isPrinted S lst
  have hf : [a, b, c].filter isPrinted = [b, c] := by
    simp [List.filter, isPrinted, ha, hb, hc]
  have hp : ((S.sort lst).filter isPrinted).Perm [b, c] := by
    have := hperm.trans (hl.filter isPrinted)
    rwa [hf] at this
  have hlen : ((S.sort lst).filter isPrinted).length = 2 := by simpa using hp.length_eq
  obtain ⟨x, y, hxy⟩ := List.length_eq_two.mp hlen
  rw [hxy] at hp hsorted ⊢
  have hx : x ∈ [b, c] := hp.subset (List.mem_cons_self _ _)
  have hcm : c ∈ [x, y] := hp.symm.subset (by simp)
  have hbm : b ∈ [x, y] := hp.symm.subset (by simp)
  have hle : x.size ≤ y.size := by
    have := List.pairwise_cons.mp hsorted
    exact this.1 y (List.mem_cons_self _ _)
  have hbc : b ≠ c := by
    intro e; rw [e, hc] at hb; norm_num at hb
  simp only [List.mem_cons, List.mem_singleton, List.not_mem_nil, or_false] at hx hcm hbm
  rcases hx with rfl | rfl
  · rcases hcm with e | e
    · exact absurd e.symm hbc
    · rw [e]
  · rcases hbm with e | e
    · exact absurd e hbc
    · rw [← e, hb, hc] at hle
      norm_num at hle

theorem Swapview_of_list (S : SortSlice) (fs : ProcFS) (lst : List SwapInfo)
    (h : getSwapInfoList fs = Outcome.ok lst) : Swapview S fs = SwapviewReport S lst := by
  unfold Swapview
  rw [h]

/-! ## More on `sanitizeComm` -/

/-- The function `sanitizeComm` as a map over the input without its trailing NULs. -/
theorem sanitizeComm_eq_map (raw : GoString) :
    sanitizeComm raw = (bytes.TrimRight raw [0x00]).map fun c => if c = 0x00 then 0x20 else c := by
  have hif : (if raw.length > 0 then bytes.TrimRight raw [0x00] else raw)
      = bytes.TrimRight raw [0x00] := by
    split
    · rfl
    · have : raw = [] := List.length_eq_zero.mp (by omega)
      subst this
      rfl
  simp only [sanitizeComm, hif, bytes.ReplaceAll]
  exact replaceScan_single 0x00 0x20 _

/-- A string without NUL is left as it is by `bytes.TrimRight(s, "\x00")`. -/
theorem trimRight_of_no_nul (s : GoString) (h : ∀ c ∈ s, c ≠ 0x00) :
    bytes.TrimRight s [0x00] = s := by
  obtain ⟨k, hk, _⟩ := trimRight_nul s
  cases k with
  | zero => simpa using hk.symm
  | succ k =>
    exfalso
    have hmem : (0x00 : Nat) ∈ s := by
      rw [hk]
      simp [List.replicate_succ]
    exact h 0x00 hmem rfl

/-- A string without NUL is left as it is by `sanitizeComm`. -/
theorem sanitizeComm_of_no_nul (s : GoString) (h : ∀ c ∈ s, c ≠ 0x00) : sanitizeComm s = s := by
  rw [sanitizeComm_eq_map, trimRight_of_no_nul s h]
  have hmap : ∀ c ∈ s, (fun c : Nat => if c = 0x00 then 0x20 else c) c = id c := by
    intro c hc
    simp [h c hc]
  rw [List.map_congr_left hmap, List.map_id]

/-- The result of `sanitizeComm` holds no NUL. -/
theorem sanitizeComm_no_nul (raw : GoString) : ∀ c ∈ sanitizeComm raw, c ≠ 0x00 := by
  intro c hc
  rw [sanitizeComm_eq_map] at hc
  obtain ⟨x, _, hx⟩ := List.mem_map.mp hc
  by_cases h0 : x = 0x00
  · rw [if_pos h0] at hx
    omega
  · rw [if_neg h0] at hx
    omega

/-- The result of `bytes.TrimRight(s, "\x00")` is empty exactly when every byte is a NUL. -/
theorem trimRight_nul_eq_nil_iff (s : GoString) :
    bytes.TrimRight s [0x00] = [] ↔ ∀ c ∈ s, c = 0x00 := by
  obtain ⟨k, hk, hlast⟩ := trimRight_nul s
  constructor
  · intro he c hc
    rw [hk, he] at hc
    simpa using (List.eq_of_mem_replicate hc)
  · intro hall
    by_contra hne
    have hmem := List.getLast_mem hne
    have hsub : ∀ x ∈ bytes.TrimRight s [0x00], x ∈ s := by
      intro x hx
      have hx2 := List.mem_append_left (List.replicate k 0x00) hx
      exact hk.symm ▸ hx2
    have h0 := hall _ (hsub _ hmem)
    rw [List.getLast?_eq_getLast _ hne, h0] at hlast
    exact hlast rfl

/-! ## The list built by `getSwapInfoList` over reads that succeed or fail -/

theorem ofOption_some {α : Type} (a : α) : Outcome.ofOption (some a) = Outcome.ok a := rfl

theorem ofOption_none {α : Type} : Outcome.ofOption (none : Option α) = Outcome.error := rfl

theorem recordOf_none (rc : Int → Option GoString) (rs : Int → Option Int) (name : GoString)
    (h : strconv.Atoi name = none) : recordOf rc rs name = none := by
  simp [recordOf, h]

theorem recordOf_some_iff (rc : Int → Option GoString) (rs : Int → Option Int)
    (name : GoString) (info : SwapInfo) :
    recordOf rc rs name = some info ↔
      ∃ pid comm size, strconv.Atoi name = some pid ∧ rc pid = some comm ∧
        rs pid = some size ∧ info = ⟨pid, comm, size⟩ := by
  unfold recordOf
  cases ha : strconv.Atoi name with
  | none => simp
  | some pid =>
    cases hc : rc pid with
    | none => simp [hc]
    | some comm =>
      cases hs : rs pid with
      | none => simp [hc, hs]
      | some size =>
        simp only [hc, hs, Option.some.injEq]
        constructor
        · intro h
          exact ⟨pid, comm, size, rfl, hc, hs, h.symm⟩
        · rintro ⟨p, c, z, hp, hc2, hs2, hinfo⟩
          subst hp
          rw [hc] at hc2
          rw [hs] at hs2
          rw [hinfo, Option.some.inj hc2, Option.some.inj hs2]

/-- The loop of `getSwapInfoList`, over reads that succeed or fail, appends to
the list one record for each entry that gives one, in the order of the entries. -/
theorem getSwapInfoListLoop_filterMap (rc : Int → Option GoString) (rs : Int → Option Int)
    (names : List GoString) :
    ∀ acc : List SwapInfo,
      getSwapInfoListLoop (fun pid => Outcome.ofOption (rc pid))
          (fun pid => Outcome.ofOption (rs pid)) names acc
        = Outcome.ok (acc ++ names.filterMap (recordOf rc rs)) := by
  induction names with
  | nil => intro acc; simp [getSwapInfoListLoop]
  | cons name rest ih =>
    intro acc
    rw [getSwapInfoListLoop]
    cases ha : strconv.Atoi name with
    | none =>
      simp only [List.filterMap_cons, recordOf_none rc rs name ha]
      exact ih acc
    | some pid =>
      simp only
      cases hc : rc pid with
      | none =>
        have hr : recordOf rc rs name = none := by simp [recordOf, ha, hc]
        simp only [ofOption_none, List.filterMap_cons, hr]
        exact ih acc
      | some comm =>
        cases hs : rs pid with
        | none =>
          have hr : recordOf rc rs name = none := by simp [recordOf, ha, hc, hs]
          simp only [ofOption_some, ofOption_none, List.filterMap_cons, hr]
          exact ih acc
        | some size =>
          have hr : recordOf rc rs name = some ⟨pid, comm, size⟩ := by
            simp [recordOf, ha, hc, hs]
          simp only [ofOption_some, List.filterMap_cons, hr]
          rw [ih, List.append_assoc]
          rfl

/-! ## The loop of `filesize` as an iteration -/

theorem filesizeGuard_iff (left : Float64) (unit : Nat) :
    filesizeGuard (left, unit) = true ↔ left.gtInt 1100 = true ∧ unit < 4 := by
  simp [filesizeGuard]

/-- The loop of `filesize` runs its body a number `n` of times, at most
`4 - unit`: the condition holds before each of the `n` runs and fails after the last. -/
theorem filesizeLoop_iterate (k : Nat) :
    ∀ (left : Float64) (unit : Nat), 4 - unit = k →
      ∃ n : Nat, n ≤ k ∧
        (∀ m : Nat, m < n → filesizeGuard (filesizeBody^[m] (left, unit)) = true) ∧
        filesizeGuard (filesizeBody^[n] (left, unit)) = false ∧
        filesizeLoop left unit = filesizeBody^[n] (left, unit) ∧
        (filesizeLoop left unit).2 = unit + n := by
  induction k with
  | zero =>
    intro left unit hk
    refine ⟨0, le_rfl, fun m hm => absurd hm (Nat.not_lt_zero m), ?_, ?_, ?_⟩
    · have hg : ¬ (filesizeGuard (left, unit) = true) := by
        rw [filesizeGuard_iff]; omega
      simpa using hg
    · rw [filesizeLoop_stop left unit (Or.inr (by omega))]; rfl
    · rw [filesizeLoop_stop left unit (Or.inr (by omega))]; rfl
  | succ k ih =>
    intro left unit hk
    by_cases hg : filesizeGuard (left, unit) = true
    · obtain ⟨h1, h2⟩ := (filesizeGuard_iff left unit).mp hg
      obtain ⟨n, hn, hbefore, hafter, hloop, hunit⟩ := ih left.div1024 (unit + 1) (by omega)
      refine ⟨n + 1, by omega, ?_, ?_, ?_, ?_⟩
      · intro m hm
        cases m with
        | zero => exact hg
        | succ m =>
          rw [Function.iterate_succ_apply]
          exact hbefore m (by omega)
      · rw [Function.iterate_succ_apply]
        exact hafter
      · rw [filesizeLoop_step left unit h1 h2, Function.iterate_succ_apply]
        exact hloop
      · rw [filesizeLoop_step left unit h1 h2, hunit]
        omega
    · have hstop : left.gtInt 1100 = false ∨ 4 ≤ unit := by
        rw [filesizeGuard_iff] at hg
        by_cases h1 : left.gtInt 1100 = true
        · right; by_contra h4; exact hg ⟨h1, by omega⟩
        · left; simpa using h1
      refine ⟨0, Nat.zero_le _, fun m hm => absurd hm (Nat.not_lt_zero m), ?_, ?_, ?_⟩
      · simpa using hg
      · rw [filesizeLoop_stop left unit hstop]; rfl
      · rw [filesizeLoop_stop left unit hstop]; rfl

/-- The conversion `float64(n)` of a value `n ≤ 0` is `≤ 0`. -/
theorem round53_nonpos (n : Int) (h : n ≤ 0) : round53 n ≤ 0 := by
  unfold round53
  simp only
  have hs : n.sign ≤ 0 := by
    rcases lt_or_eq_of_le h with hlt | heq
    · rw [Int.sign_eq_neg_one_of_neg hlt]; decide
    · rw [heq]; decide
  exact mul_nonpos_of_nonpos_of_nonneg hs (Int.ofNat_nonneg _)

/-- For a size `≤ 0` the loop of `filesize` is not entered. -/
theorem filesizeLoop_nonpos (n : Int) (h : n ≤ 0) :
    filesizeLoop (Float64.ofInt n) 0 = (Float64.ofInt n, 0) := by
  have hr := round53_nonpos n h
  have hg : Float64.gtInt (Float64.ofInt n) 1100 = false := by
    simp [Float64.gtInt, Float64.ofInt]
    omega
  exact filesizeLoop_stop _ _ (Or.inl hg)

/-- The five shapes of the result of `filesize`, by the unit index at the
exit of the loop. -/
theorem filesize_cases (n : Int) :
    ((filesizeLoop (Float64.ofInt n) 0).2 = 0 ∧
        filesize n = Outcome.ok (fmtInt n ++ ascii "B")) ∨
      ((filesizeLoop (Float64.ofInt n) 0).2 = 1 ∧
        filesize n = Outcome.ok ((filesizeLoop (Float64.ofInt n) 0).1.fmtF1 ++ ascii "KiB")) ∨
      ((filesizeLoop (Float64.ofInt n) 0).2 = 2 ∧
        filesize n = Outcome.ok ((filesizeLoop (Float64.ofInt n) 0).1.fmtF1 ++ ascii "MiB")) ∨
      ((filesizeLoop (Float64.ofInt n) 0).2 = 3 ∧
        filesize n = Outcome.ok ((filesizeLoop (Float64.ofInt n) 0).1.fmtF1 ++ ascii "GiB")) ∨
      ((filesizeLoop (Float64.ofInt n) 0).2 = 4 ∧
        filesize n = Outcome.ok ((filesizeLoop (Float64.ofInt n) 0).1.fmtF1 ++ ascii "TiB")) := by
  have hle := filesizeLoop_unit_le 4 (Float64.ofInt n) 0 rfl (by norm_num)
  unfold filesize
  generalize filesizeLoop (Float64.ofInt n) 0 = r at hle ⊢
  obtain ⟨l, u⟩ := r
  simp only at hle ⊢
  interval_cases u
  · left; exact ⟨rfl, rfl⟩
  · right; left; exact ⟨rfl, rfl⟩
  · right; right; left; exact ⟨rfl, rfl⟩
  · right; right; right; left; exact ⟨rfl, rfl⟩
  · right; right; right; right; exact ⟨rfl, rfl⟩

/-- Beyond 1100 TiB the loop of `filesize` runs until the unit index is 4. -/
theorem filesizeLoop_huge (n : Int) (h : 1100 * 1024 ^ 4 < n) :
    (filesizeLoop (Float64.ofInt n) 0).2 = 4 := by
  have hm : 1100 * 1024 ^ 3 < round53 n := by
    by_cases hlt : n < 2 ^ 53
    · rw [round53_exact n (by omega)]; omega
    · have := round53_large n (by omega)
      omega
  obtain ⟨k, _, hk4, hloop, _, hup⟩ := filesizeLoop_pos (round53 n) (by omega)
  have hk : k = 4 := by
    rcases hup with hup | hup
    · exfalso
      have hk3 : k ≤ 3 := by
        by_contra hc
        have : k = 4 := by omega
        subst this
        by_cases hlt : n < 2 ^ 53
        · rw [round53_exact n (by omega)] at hup; omega
        · have := round53_large n (by omega)
          omega
      have hp : (1024 : Int) ^ k ≤ 1024 ^ 3 := pow_le_pow_right₀ (by norm_num) hk3
      omega
    · exact hup
  unfold Float64.ofInt
  rw [hloop, hk]

/-! ## The characters and the length of what `%d` and `%.1f` write -/

theorem digitChar_digit : ∀ d : Nat, d < 10 →
    0x30 ≤ (Nat.digitChar d).toNat ∧ (Nat.digitChar d).toNat ≤ 0x39 := by
  decide

theorem toDigitsCore_digit (fuel : Nat) :
    ∀ (n : Nat) (ds : List Char), (∀ c ∈ ds, 0x30 ≤ c.toNat ∧ c.toNat ≤ 0x39) →
      ∀ c ∈ Nat.toDigitsCore 10 fuel n ds, 0x30 ≤ c.toNat ∧ c.toNat ≤ 0x39 := by
  induction fuel with
  | zero => intro n ds hds c hc; exact hds c (by simpa [Nat.toDigitsCore] using hc)
  | succ f ih =>
    intro n ds hds c hc
    have hd := digitChar_digit (n % 10) (Nat.mod_lt n (by norm_num))
    have hcons : ∀ x ∈ Nat.digitChar (n % 10) :: ds, 0x30 ≤ x.toNat ∧ x.toNat ≤ 0x39 := by
      intro x hx
      rcases List.mem_cons.mp hx with rfl | hx
      · exact hd
      · exact hds x hx
    simp only [Nat.toDigitsCore] at hc
    split at hc
    · exact hcons c hc
    · exact ih _ _ hcons c hc

/-- The verb `%d` writes decimal digits only. -/
theorem fmtNat_digit (n : Nat) : ∀ c ∈ fmtNat n, 0x30 ≤ c ∧ c ≤ 0x39 := by
  intro c hc
  unfold fmtNat at hc
  obtain ⟨x, hx, rfl⟩ := List.mem_map.mp hc
  exact toDigitsCore_digit (n + 1) n [] (by simp) x hx

/-- A number below `10 ^ e` is written with at most `e` digits. -/
theorem fmtNat_length (n e : Nat) (he : 0 < e) (h : n < 10 ^ e) : (fmtNat n).length ≤ e := by
  unfold fmtNat
  rw [List.length_map]
  exact Nat.toDigitsCore_length 10 (by norm_num) (n + 1) n e h he

theorem fmtInt_ascii (n : Int) : IsAscii (fmtInt n) := by
  intro c hc
  cases n with
  | ofNat k =>
    have := fmtNat_digit k c hc
    omega
  | negSucc k =>
    simp only [fmtInt] at hc
    rcases List.mem_cons.mp hc with rfl | hc
    · norm_num
    · have := fmtNat_digit (k + 1) c hc
      omega

theorem fmtF1Nat_ascii (num den : Nat) : IsAscii (fmtF1Nat num den) := by
  intro c hc
  unfold fmtF1Nat at hc
  simp only at hc
  rcases List.mem_append.mp hc with hc | hc
  · have := fmtNat_digit _ c hc
    omega
  · rcases List.mem_cons.mp hc with rfl | hc
    · norm_num
    · have := fmtNat_digit _ c hc
      omega

theorem fmtF1_ascii (x : Float64) : IsAscii x.fmtF1 := by
  intro c hc
  unfold Float64.fmtF1 at hc
  split at hc
  · rcases List.mem_cons.mp hc with rfl | hc
    · norm_num
    · exact fmtF1Nat_ascii _ _ c hc
  · exact fmtF1Nat_ascii _ _ c hc

theorem isAscii_append (s t : GoString) (hs : IsAscii s) (ht : IsAscii t) : IsAscii (s ++ t) := by
  intro c hc
  rcases List.mem_append.mp hc with hc | hc
  · exact hs c hc
  · exact ht c hc

/-- The string `filesize` returns is ASCII: it has as many characters as bytes. -/
theorem filesize_ascii (n : Int) (sz : GoString) (h : filesize n = Outcome.ok sz) :
    IsAscii sz := by
  have hB : IsAscii (ascii "B") := by unfold IsAscii; decide
  have hK : IsAscii (ascii "KiB") := by unfold IsAscii; decide
  have hM : IsAscii (ascii "MiB") := by unfold IsAscii; decide
  have hG : IsAscii (ascii "GiB") := by unfold IsAscii; decide
  have hT : IsAscii (ascii "TiB") := by unfold IsAscii; decide
  rcases filesize_cases n with hc | hc | hc | hc | hc
  · rw [hc.2] at h
    rw [← Outcome.ok.inj h]
    exact isAscii_append _ _ (fmtInt_ascii n) hB
  · rw [hc.2] at h
    rw [← Outcome.ok.inj h]
    exact isAscii_append _ _ (fmtF1_ascii _) hK
  · rw [hc.2] at h
    rw [← Outcome.ok.inj h]
    exact isAscii_append _ _ (fmtF1_ascii _) hM
  · rw [hc.2] at h
    rw [← Outcome.ok.inj h]
    exact isAscii_append _ _ (fmtF1_ascii _) hG
  · rw [hc.2] at h
    rw [← Outcome.ok.inj h]
    exact isAscii_append _ _ (fmtF1_ascii _) hT

theorem padLeft_length (w : Nat) (s : GoString) : (padLeft w s).length = max w s.length := by
  unfold padLeft
  rw [List.length_append, List.length_replicate]
  omega

/-- A fraction `num / den ≤ 1100` is written by `%.1f` with at most 6 characters. -/
theorem fmtF1Nat_length (num den : Nat) (hden : 0 < den) (h : num ≤ 1100 * den) :
    (fmtF1Nat num den).length ≤ 6 := by
  have hq : 10 * num / den ≤ 11000 := Nat.div_le_of_le_mul (by omega)
  have hsplit := Nat.div_add_mod (10 * num) den
  have hq1 : (if den < 2 * (10 * num % den) ∨
        (2 * (10 * num % den) = den ∧ 10 * num / den % 2 = 1)
      then 10 * num / den + 1 else 10 * num / den) ≤ 11000 := by
    by_cases hmax : 10 * num / den = 11000
    · rw [hmax] at hsplit
      have hr : 10 * num % den = 0 := by omega
      have hc : ¬ (den < 2 * (10 * num % den) ∨
          (2 * (10 * num % den) = den ∧ 10 * num / den % 2 = 1)) := by
        rw [hr]; omega
      rw [if_neg hc]
      exact hq
    · split <;> omega
  unfold fmtF1Nat
  simp only
  generalize (if den < 2 * (10 * num % den) ∨
        (2 * (10 * num % den) = den ∧ 10 * num / den % 2 = 1)
      then 10 * num / den + 1 else 10 * num / den) = q1 at hq1 ⊢
  have h1 := fmtNat_length (q1 / 10) 4 (by norm_num) (by omega)
  have h2 := fmtNat_length (q1 % 10) 1 (by norm_num) (by omega)
  rw [List.length_append, List.length_cons]
  omega

/-- For `0 ≤ n ≤ 1100` the loop of `filesize` is not entered. -/
theorem filesize_small (n : Int) (h0 : 0 ≤ n) (h1 : n ≤ 1100) :
    filesize n = Outcome.ok (fmtInt n ++ ascii "B") := by
  have hr : round53 n = n := round53_exact n (by omega)
  have hg : Float64.gtInt (Float64.ofInt n) 1100 = false := by
    simp [Float64.gtInt, Float64.ofInt, hr, h1]
  have hu : (filesizeLoop (Float64.ofInt n) 0).2 = 0 := by
    rw [filesizeLoop_stop _ _ (Or.inl hg)]
  rcases filesize_cases n with h | h | h | h | h
  · exact h.2
  · omega
  · omega
  · omega
  · omega

/-- The string `filesize` returns for `0 ≤ n ≤ 1100 * 1024 ^ 4` has at most 9 bytes. -/
theorem filesize_length (n : Int) (h0 : 0 ≤ n) (h1 : n ≤ 1100 * 1024 ^ 4) (sz : GoString)
    (h : filesize n = Outcome.ok sz) : sz.length ≤ 9 := by
  by_cases hs : n ≤ 1100
  · rw [filesize_small n h0 hs] at h
    rw [← Outcome.ok.inj h]
    obtain ⟨k, rfl⟩ := Int.eq_ofNat_of_zero_le h0
    have hk : k < 10 ^ 4 := by norm_num; omega
    have hlen := fmtNat_length k 4 (by norm_num) hk
    have hB : (ascii "B").length = 1 := by decide
    rw [List.length_append, hB]
    show (fmtNat k).length + 1 ≤ 9
    omega
  · have hr : round53 n = n := round53_exact n (by omega)
    obtain ⟨k, hk1, hk4, hloop, _, hup⟩ := filesizeLoop_pos n (by omega)
    have hbound : n ≤ 1100 * 1024 ^ k := by
      rcases hup with hup | hup
      · exact hup
      · rw [hup]; exact h1
    have hofInt : Float64.ofInt n = ⟨n, 0⟩ := by unfold Float64.ofInt; rw [hr]
    have hfmt : (filesizeLoop (Float64.ofInt n) 0).1.fmtF1 = fmtF1Nat n.natAbs (2 ^ (10 * k)) := by
      rw [hofInt, hloop]
      have hnn : ¬ n < 0 := by omega
      simp [Float64.fmtF1, hnn]
    have hnat : n.natAbs ≤ 1100 * 2 ^ (10 * k) := by
      have h2 : (2 : Nat) ^ (10 * k) = 1024 ^ k := by rw [pow_mul]; norm_num
      rw [h2]
      have : ((n.natAbs : Nat) : Int) ≤ ((1100 * 1024 ^ k : Nat) : Int) := by
        push_cast
        rw [abs_of_nonneg h0]
        exact hbound
      exact_mod_cast this
    have hlen := fmtF1Nat_length n.natAbs (2 ^ (10 * k)) (by positivity) hnat
    have hK : (ascii "KiB").length = 3 := by decide
    have hM : (ascii "MiB").length = 3 := by decide
    have hG : (ascii "GiB").length = 3 := by decide
    have hT : (ascii "TiB").length = 3 := by decide
    have hu : (filesizeLoop (Float64.ofInt n) 0).2 = k := by rw [hofInt, hloop]
    rcases filesize_cases n with hc | hc | hc | hc | hc
    · omega
    · rw [hc.2] at h
      rw [← Outcome.ok.inj h, List.length_append, hfmt, hK]
      omega
    · rw [hc.2] at h
      rw [← Outcome.ok.inj h, List.length_append, hfmt, hM]
      omega
    · rw [hc.2] at h
      rw [← Outcome.ok.inj h, List.length_append, hfmt, hG]
      omega
    · rw [hc.2] at h
      rw [← Outcome.ok.inj h, List.length_append, hfmt, hT]
      omega

/-- The report for the records `(7, "top", 1000000)` and `(42, "sh -c ls", 1024)`:
header, the two rows in ascending order of size, total. -/
theorem report_rows_example :
    SwapviewReport insertionSortSlice
        [⟨7, ascii "top", 1000000⟩, ⟨42, ascii "sh -c ls", 1024⟩]
      = Outcome.ok [ascii "    PID      SWAP COMMAND\n", ascii "     42     1024B sh -c ls\n",
          ascii "      7  976.6KiB top\n", ascii "Total:   977.6KiB\n"] := by
  have hsort : insertionSortSlice.sort
      [⟨7, ascii "top", 1000000⟩, ⟨42, ascii "sh -c ls", 1024⟩]
      = [⟨42, ascii "sh -c ls", 1024⟩, ⟨7, ascii "top", 1000000⟩] := by decide
  have hr1 : round53 1024 = 1024 := by decide
  have hr2 : round53 1000000 = 1000000 := by decide
  have hr3 : round53 1001024 = 1001024 := by decide
  have hf1 : filesize 1024 = Outcome.ok (ascii "1024B") := by
    simp [filesize, filesizeLoop, Float64.ofInt, Float64.gtInt, Float64.div1024, hr1]
    decide
  have hf2 : filesize 1000000 = Outcome.ok (ascii "976.6KiB") := by
    simp [filesize, filesizeLoop, Float64.ofInt, Float64.gtInt, Float64.div1024, hr2]
    decide
  have hf3 : filesize 1001024 = Outcome.ok (ascii "977.6KiB") := by
    simp [filesize, filesizeLoop, Float64.ofInt, Float64.gtInt, Float64.div1024, hr3]
    decide
  have hw1 : wrap64 1024 = 1024 := by decide
  have hw2 : wrap64 1001024 = 1001024 := by decide
  simp [SwapviewReport, hsort, SwapviewLoop, hf1, hf2, hf3, hw1, hw2]
  decide

/-! ## Claims -/

/-- C1: for every integer `n` with `0 ≤ n ≤ 1100`, `filesize n` returns the
decimal rendering of `n` (the digits `%d` writes, which are those of Lean's
`toString`) followed by `B`; the loop is not entered. -/
theorem C1_filesize_bytes (n : Int) (h0 : 0 ≤ n) (h1 : n ≤ 1100) :
    filesize n = Outcome.ok (fmtInt n ++ ascii "B") ∧ fmtInt n = ascii (toString n.toNat) := by
  have hr : round53 n = n := round53_exact n (by omega)
  have hg : Float64.gtInt (Float64.ofInt n) 1100 = false := by
    simp [Float64.gtInt, Float64.ofInt, hr, h1]
  refine ⟨by simp [filesize, filesizeLoop_stop _ _ (Or.inl hg)], ?_⟩
  obtain ⟨k, rfl⟩ := Int.eq_ofNat_of_zero_le h0
  rfl

/-- Instances of C1 at `0`, `1000`, `1024` and `1100`: `0B`, `1000B`, `1024B`, `1100B`. -/
theorem C1_filesize_bytes_witness :
    filesize 0 = Outcome.ok (ascii "0B") ∧ filesize 1000 = Outcome.ok (ascii "1000B") ∧
      filesize 1024 = Outcome.ok (ascii "1024B") ∧ filesize 1100 = Outcome.ok (ascii "1100B") :=
  ⟨(C1_filesize_bytes 0 (by decide) (by decide)).1,
    (C1_filesize_bytes 1000 (by decide) (by decide)).1,
    (C1_filesize_bytes 1024 (by decide) (by decide)).1,
    (C1_filesize_bytes 1100 (by decide) (by decide)).1⟩

/-- C2 (as amended): for every integer `n > 1100`, `filesize n` is
`<v><U>iB` where `k` is the least `k` in `1..4` with `n / 1024 ^ k ≤ 1100`
(`4` if there is none), `U` is the `k`-th letter of `K, M, G, T`, and `v` is
`float64(n) / 1024 ^ k` written with one decimal place; `float64(n)` is `n`
itself for every `n ≤ 2 ^ 53`. -/
theorem C2_filesize_scaled (n : Int) (h : 1100 < n) :
    ∃ k : Nat, ∃ u : Nat, 1 ≤ k ∧ k ≤ 4 ∧
      (∀ j : Nat, 1 ≤ j → j < k → ¬ ((n : ℚ) / 1024 ^ j ≤ 1100)) ∧
      ((n : ℚ) / 1024 ^ k ≤ 1100 ∨ k = 4) ∧
      UNIT[k - 1]? = some u ∧
      filesize n = Outcome.ok (fmtF1Nat (round53 n).toNat (1024 ^ k) ++ u :: ascii "iB") ∧
      (n ≤ 2 ^ 53 → round53 n = n) := by
  have hex : n ≤ 2 ^ 53 → round53 n = n := by
    intro hle
    rcases lt_or_eq_of_le hle with hlt | heq
    · exact round53_exact n (by omega)
    · subst heq; decide
  have hm : 1100 < round53 n := by
    by_cases hle : n ≤ 2 ^ 53
    · rw [hex hle]; exact h
    · have := round53_large n (by omega)
      omega
  obtain ⟨k, hk1, hk4, hloop, hlow, hup⟩ := filesizeLoop_pos (round53 n) hm
  have hpow : (1024 : Int) ^ k ≤ 1024 ^ 4 := pow_le_pow_right₀ (by norm_num) hk4
  have hlow2 : ∀ j : Nat, j < k → 1100 * 1024 ^ j < n := by
    intro j hj
    by_cases hle : n ≤ 2 ^ 53
    · rw [hex hle] at hlow; exact hlow j hj
    · have hj4 : (1024 : Int) ^ j ≤ 1024 ^ 4 := pow_le_pow_right₀ (by norm_num) (by omega)
      omega
  have hup2 : n ≤ 1100 * 1024 ^ k ∨ k = 4 := by
    by_cases hle : n ≤ 2 ^ 53
    · rw [hex hle] at hup; exact hup
    · have := round53_large n (by omega)
      rcases hup with hup | hup
      · omega
      · exact Or.inr hup
  obtain ⟨u, hu⟩ : ∃ u, UNIT[k - 1]? = some u := by
    interval_cases k <;> simp [UNIT]
  refine ⟨k, u, hk1, hk4, ?_, ?_, hu, ?_, hex⟩
  · intro j _ hj
    have := hlow2 j hj
    rw [div_le_iff₀ (by positivity), not_le]
    exact_mod_cast this
  · rcases hup2 with hup2 | hup2
    · left
      rw [div_le_iff₀ (by positivity)]
      exact_mod_cast hup2
    · exact Or.inr hup2
  · have hk0 : k ≠ 0 := by omega
    have hnn : ¬ round53 n < 0 := by omega
    have habs : (round53 n).natAbs = (round53 n).toNat := by omega
    have h2 : (2 : Nat) ^ (10 * k) = 1024 ^ k := by rw [pow_mul]; norm_num
    simp [filesize, Float64.ofInt, hloop, hk0, hu, Float64.fmtF1, hnn, habs, h2]

/-- Instance of C2 at `1000000`: the result is `976.6KiB`. -/
theorem C2_filesize_scaled_witness :
    (1100 : Int) < 1000000 ∧ filesize 1000000 = Outcome.ok (ascii "976.6KiB") := by
  refine ⟨by decide, ?_⟩
  obtain ⟨k, u, hk1, hk4, hlow, hup, hu, hf, _⟩ := C2_filesize_scaled 1000000 (by decide)
  have hk : k = 1 := by
    by_contra hne
    exact hlow 1 le_rfl (by omega) (by norm_num)
  subst hk
  have hu2 : u = 0x4b := by
    have : UNIT[1 - 1]? = some 0x4b := by decide
    rw [this] at hu
    exact (Option.some.inj hu).symm
  subst hu2
  rw [hf]
  decide

/-- C2 fails as stated beyond `2 ^ 53`: at `n = 2 ^ 53 + 2 ^ 38 + 1` the unit
is `T` (`n / 1024 ^ k > 1100` for `k = 1, 2, 3`), the conversion `float64(n)` rounds to
`2 ^ 53 + 2 ^ 38`, so `filesize` prints `8192.25` as `8192.2TiB`, while
`n / 1024 ^ 4` written with one decimal place is `8192.3`. -/
theorem C2_counterexample :
    filesize 9007474132647937 = Outcome.ok (ascii "8192.2TiB") ∧
      (¬ (((9007474132647937 : Int) : ℚ) / 1024 ^ 1 ≤ 1100) ∧
        ¬ (((9007474132647937 : Int) : ℚ) / 1024 ^ 2 ≤ 1100) ∧
        ¬ (((9007474132647937 : Int) : ℚ) / 1024 ^ 3 ≤ 1100)) ∧
      fmtF1Nat 9007474132647937 (1024 ^ 4) ++ 0x54 :: ascii "iB" = ascii "8192.3TiB" := by
  refine ⟨?_, ⟨by norm_num, by norm_num, by norm_num⟩, by decide⟩
  have hr : round53 9007474132647937 = 9007474132647936 := by decide
  simp [filesize, filesizeLoop, Float64.ofInt, Float64.gtInt, Float64.div1024, hr]
  decide

/-- C3 (as amended): for a text in which no line is `MaxScanTokenSize` (65536)
bytes long or more, when every line that begins with `Swap:` has the form
`Swap:<whitespace><integer><whitespace><3-byte suffix>`, each integer being a
decimal numeral for a value of type `int`, `readSwapSize` succeeds and returns
1024 times the sum of those integers, reduced to the range of `int`; that is
exactly 1024 times the sum whenever this product is in the range of `int`.
A line ends at a line feed or at the end of the text, without the carriage
return that may come right before. -/
theorem C3_readSwapSize_sum (fs : ProcFS) (pid : Int) (content : GoString)
    (value : GoString → Int) (hfile : fs.smaps pid = some content)
    (hshort : ∀ line ∈ rawLines content, line.length < bufio.MaxScanTokenSize)
    (hform : ∀ line ∈ swapLines (textLines content),
      IsSwapLine line (value line) ∧ InInt64 (value line)) :
    readSwapSize fs pid
        = Outcome.ok (wrap64 (1024 * ((swapLines (textLines content)).map value).sum)) ∧
      (InInt64 (1024 * ((swapLines (textLines content)).map value).sum) →
        readSwapSize fs pid
          = Outcome.ok (1024 * ((swapLines (textLines content)).map value).sum)) ∧
      (swapLines (textLines content) = [] → readSwapSize fs pid = Outcome.ok 0) ∧
      bufio.MaxScanTokenSize = 65536 := by
  have hread : bufio.Scanner.tokens content = textLines content := by
    rw [tokens_eq_linesRead, linesRead_of_short content hshort]
  have h := readSwapSizeLoop_sum value (textLines content) 0 hform
  have e : (0 + ((swapLines (textLines content)).map value).sum) * 1024
      = 1024 * ((swapLines (textLines content)).map value).sum := by ring
  rw [e] at h
  have hrun : readSwapSize fs pid
      = Outcome.ok (wrap64 (1024 * ((swapLines (textLines content)).map value).sum)) := by
    unfold readSwapSize
    rw [hfile]
    simp only [hread]
    exact h
  refine ⟨hrun, fun hin => ?_, fun hnone => ?_, rfl⟩
  · rw [hrun, wrap64_of_inInt64 _ hin]
  · rw [hrun, hnone]
    rfl

/-- Instances of C3: the text of the lines `Swap: 100 kB`, `Size: 4 kB`,
`SwapPss: 7 kB`, `Swap: 200 kB` gives 307200, also with the line ends `CR LF`
and no line feed after the last line; the empty text gives 0. -/
theorem C3_readSwapSize_sum_witness :
    readSwapSize (fsOfSmaps (ascii "Swap: 100 kB\nSize: 4 kB\nSwapPss: 7 kB\nSwap: 200 kB\n")) 1
        = Outcome.ok 307200 ∧
      readSwapSize
          (fsOfSmaps (ascii "Swap: 100 kB\r\nSize: 4 kB\r\nSwapPss: 7 kB\r\nSwap: 200 kB")) 1
        = Outcome.ok 307200 ∧
      readSwapSize (fsOfSmaps []) 1 = Outcome.ok 0 := by
  have hform : ∀ line ∈ [ascii "Swap: 100 kB", ascii "Swap: 200 kB"],
      IsSwapLine line (if line = ascii "Swap: 100 kB" then 100 else 200) ∧
        InInt64 (if line = ascii "Swap: 100 kB" then 100 else 200) := by
    intro line hl
    rcases List.mem_pair.mp hl with rfl | rfl
    · refine ⟨⟨ascii " ", ascii "100", [], ascii " kB", by decide, by unfold IsBlank; decide,
        IsNumeral.unsigned (ascii "100") ⟨by decide, by decide⟩, by unfold IsBlank; decide,
        by decide⟩, by decide⟩
    · refine ⟨⟨ascii " ", ascii "200", [], ascii " kB", by decide, by unfold IsBlank; decide,
        IsNumeral.unsigned (ascii "200") ⟨by decide, by decide⟩, by unfold IsBlank; decide,
        by decide⟩, by decide⟩
  refine ⟨?_, ?_, ?_⟩
  · have hsw : swapLines
        (textLines (ascii "Swap: 100 kB\nSize: 4 kB\nSwapPss: 7 kB\nSwap: 200 kB\n"))
        = [ascii "Swap: 100 kB", ascii "Swap: 200 kB"] := by decide
    have h := C3_readSwapSize_sum
      (fsOfSmaps (ascii "Swap: 100 kB\nSize: 4 kB\nSwapPss: 7 kB\nSwap: 200 kB\n")) 1 _
      (fun line => if line = ascii "Swap: 100 kB" then 100 else 200) rfl (by decide)
      (by rw [hsw]; exact hform)
    rw [hsw] at h
    exact h.2.1 (by decide)
  · have hsw : swapLines
        (textLines (ascii "Swap: 100 kB\r\nSize: 4 kB\r\nSwapPss: 7 kB\r\nSwap: 200 kB"))
        = [ascii "Swap: 100 kB", ascii "Swap: 200 kB"] := by decide
    have h := C3_readSwapSize_sum
      (fsOfSmaps (ascii "Swap: 100 kB\r\nSize: 4 kB\r\nSwapPss: 7 kB\r\nSwap: 200 kB")) 1 _
      (fun line => if line = ascii "Swap: 100 kB" then 100 else 200) rfl (by decide)
      (by rw [hsw]; exact hform)
    rw [hsw] at h
    exact h.2.1 (by decide)
  · exact (C3_readSwapSize_sum (fsOfSmaps []) 1 [] (fun _ => 0) rfl (by decide)
      (by intro line hl; simp [swapLines, textLines, rawLines] at hl)).2.2.1 rfl

/-- C3 fails as stated.  Outside the range of `int`: the line
`Swap: 9223372036854775808 kB` has the required form, yet `strconv.Atoi`
rejects the numeral and `readSwapSize` returns an error; and on the line
`Swap: 9007199254740992 kB` the product by 1024 wraps around, the result being
`-9223372036854775808` rather than `1024 * 9007199254740992`.  On a line too
long for the buffer of the scanner: in the text of the three lines
`Swap: 1 kB`, 70000 letters `x`, `Swap: 2 kB`, both `Swap:` lines have the
required form, yet the scanner stops at the second line and `readSwapSize`
returns `1024`, not `1024 * (1 + 2)`. -/
theorem C3_counterexample :
    (IsSwapLine (ascii "Swap: 9223372036854775808 kB") 9223372036854775808 ∧
        readSwapSize (fsOfSmaps (ascii "Swap: 9223372036854775808 kB\n")) 1 = Outcome.error) ∧
      (IsSwapLine (ascii "Swap: 9007199254740992 kB") 9007199254740992 ∧
        readSwapSize (fsOfSmaps (ascii "Swap: 9007199254740992 kB\n")) 1
          = Outcome.ok (-9223372036854775808) ∧
        (-9223372036854775808 : Int) ≠ 1024 * 9007199254740992) ∧
      (textLines (ascii "Swap: 1 kB\n" ++ List.replicate 70000 0x78 ++ ascii "\nSwap: 2 kB\n")
          = [ascii "Swap: 1 kB", List.replicate 70000 0x78, ascii "Swap: 2 kB"] ∧
        IsSwapLine (ascii "Swap: 1 kB") 1 ∧ IsSwapLine (ascii "Swap: 2 kB") 2 ∧
        strings.HasPrefix (List.replicate 70000 0x78) (ascii "Swap:") = false ∧
        readSwapSize
            (fsOfSmaps
              (ascii "Swap: 1 kB\n" ++ List.replicate 70000 0x78 ++ ascii "\nSwap: 2 kB\n")) 1
          = Outcome.ok 1024 ∧
        (1024 : Int) ≠ 1024 * (1 + 2)) := by
  have hx : (0x0a : Nat) ∉ List.replicate 70000 0x78 := not_mem_replicate _ _ _ (by decide)
  have hcr : (0x0d : Nat) ∉ List.replicate 70000 0x78 := not_mem_replicate _ _ _ (by decide)
  have hlong : bufio.MaxScanTokenSize ≤ (List.replicate 70000 0x78).length := by
    rw [List.length_replicate]; decide
  have hshape : ascii "Swap: 1 kB\n" ++ List.replicate 70000 0x78 ++ ascii "\nSwap: 2 kB\n"
      = ascii "Swap: 1 kB" ++ 0x0a :: (List.replicate 70000 0x78
          ++ 0x0a :: (ascii "Swap: 2 kB" ++ 0x0a :: [])) :=
    three_lines (ascii "Swap: 1 kB") (List.replicate 70000 0x78) (ascii "Swap: 2 kB")
  refine ⟨⟨?_, by decide⟩, ⟨?_, by decide, by decide⟩, ?_, ?_, ?_, ?_, ?_, by decide⟩
  · exact ⟨ascii " ", ascii "9223372036854775808", [], ascii " kB", by decide,
      by unfold IsBlank; decide,
      IsNumeral.unsigned (ascii "9223372036854775808") ⟨by decide, by decide⟩,
      by unfold IsBlank; decide, by decide⟩
  · exact ⟨ascii " ", ascii "9007199254740992", [], ascii " kB", by decide,
      by unfold IsBlank; decide,
      IsNumeral.unsigned (ascii "9007199254740992") ⟨by decide, by decide⟩,
      by unfold IsBlank; decide, by decide⟩
  · rw [hshape, textLines_line _ _ (by decide), textLines_line _ _ hx,
      textLines_line _ _ (by decide), dropCR_of_no_cr _ hcr]
    have h1 : bufio.dropCR (ascii "Swap: 1 kB") = ascii "Swap: 1 kB" := by decide
    have h2 : bufio.dropCR (ascii "Swap: 2 kB") = ascii "Swap: 2 kB" := by decide
    have h0 : textLines [] = [] := rfl
    rw [h1, h2, h0]
  · exact ⟨ascii " ", ascii "1", [], ascii " kB", by decide, by unfold IsBlank; decide,
      IsNumeral.unsigned (ascii "1") ⟨by decide, by decide⟩, by unfold IsBlank; decide,
      by decide⟩
  · exact ⟨ascii " ", ascii "2", [], ascii " kB", by decide, by unfold IsBlank; decide,
      IsNumeral.unsigned (ascii "2") ⟨by decide, by decide⟩, by unfold IsBlank; decide,
      by decide⟩
  · have e : List.replicate 70000 (0x78 : Nat) = 0x78 :: List.replicate 69999 0x78 := rfl
    rw [e]
    rfl
  · have hread : bufio.Scanner.tokens
        (ascii "Swap: 1 kB\n" ++ List.replicate 70000 0x78 ++ ascii "\nSwap: 2 kB\n")
        = [ascii "Swap: 1 kB"] := by
      rw [tokens_eq_linesRead, hshape, linesRead_line _ _ (by decide) (by decide),
        linesRead_tooLong _ _ hx hlong]
      decide
    unfold readSwapSize
    simp only [fsOfSmaps, hread]
    decide

/-- C4: `sanitizeComm raw` is `raw` without its trailing NUL bytes (the part
`body`, which does not end with a NUL, of the unique split `raw = body ++ NULs`)
in which every NUL is replaced by one space and every other byte is kept, in
order; the bytes `foo\0bar\0\0` give `foo bar`. -/
theorem C4_sanitizeComm (raw : GoString) :
    (∃ (body : GoString) (k : Nat), raw = body ++ List.replicate k 0x00 ∧
        body.getLast? ≠ some 0x00 ∧
        sanitizeComm raw = body.map fun c => if c = 0x00 then 0x20 else c) ∧
      sanitizeComm (ascii "foo\x00bar\x00\x00") = ascii "foo bar" := by
  refine ⟨?_, by decide⟩
  obtain ⟨k, hk, hlast⟩ := trimRight_nul raw
  refine ⟨bytes.TrimRight raw [0x00], k, hk, hlast, ?_⟩
  have hif : (if raw.length > 0 then bytes.TrimRight raw [0x00] else raw)
      = bytes.TrimRight raw [0x00] := by
    split
    · rfl
    · have : raw = [] := List.length_eq_zero.mp (by omega)
      subst this
      rfl
  simp only [sanitizeComm, hif, bytes.ReplaceAll]
  exact replaceScan_single 0x00 0x20 _

/-- C5 fails on the code: a `Swap:` line shorter than 8 bytes makes the slice
`line[5 : len(line)-3]` run out of bounds.  On the line `Swap:` alone
`readSwapSize` panics, and with it `getSwapInfoList` and `Swapview`. -/
theorem C5_short_swap_line_panics :
    sliceStr (ascii "Swap:") 5 (((ascii "Swap:").length : Int) - 3) = none ∧
      readSwapSize (fsOfSmaps (ascii "Swap:\n")) 1 = Outcome.panic ∧
      readSwapSize (fsOfSmaps (ascii "Swap: 1\n")) 1 = Outcome.panic ∧
      getSwapInfoList (fsOfSmaps (ascii "Size: 4 kB\nSwap:\n")) = Outcome.panic ∧
      Swapview insertionSortSlice (fsOfSmaps (ascii "Size: 4 kB\nSwap:\n"))
        = Outcome.panic := by
  refine ⟨by decide, by decide, by decide, by decide, ?_⟩
  have h : getSwapInfoList (fsOfSmaps (ascii "Size: 4 kB\nSwap:\n")) = Outcome.panic := by
    decide
  simp [Swapview, h]

/-- C6 (as amended): of a text, take the lines that come before its first
line of `MaxScanTokenSize` (65536) bytes or more, all its lines when it has no
such line.  When none of them that begins with `Swap:` is shorter than 8 bytes
and at least one of them has a numeric field (the text between the 5-byte
prefix and the last 3 bytes, white space trimmed) that `strconv.Atoi` does not
parse, `readSwapSize` returns an error and no size, whatever the other lines
are. -/
theorem C6_readSwapSize_error (fs : ProcFS) (pid : Int) (content : GoString)
    (hfile : fs.smaps pid = some content)
    (hlen : ∀ line ∈ swapLines (linesRead content), 8 ≤ line.length)
    (hbad : ∃ line ∈ swapLines (linesRead content), strconv.Atoi (numericField line) = none) :
    readSwapSize fs pid = Outcome.error ∧
      ((∀ line ∈ rawLines content, line.length < bufio.MaxScanTokenSize) →
        linesRead content = textLines content) ∧
      bufio.MaxScanTokenSize = 65536 := by
  refine ⟨?_, linesRead_of_short content, rfl⟩
  unfold readSwapSize
  rw [hfile]
  simp only [tokens_eq_linesRead]
  exact readSwapSizeLoop_bad (linesRead content) 0 hlen hbad

/-- Instances of C6: a `Swap:` line with the field `1x0` between two valid
ones; and the same line followed by a line of 70000 bytes. -/
theorem C6_readSwapSize_error_witness :
    readSwapSize (fsOfSmaps (ascii "Swap: 100 kB\nSwap: 1x0 kB\nSwap: 200 kB\n")) 1
        = Outcome.error ∧
      readSwapSize (fsOfSmaps (ascii "Swap: 1x0 kB\n" ++ List.replicate 70000 0x78 ++ [0x0a])) 1
        = Outcome.error := by
  have hx : (0x0a : Nat) ∉ List.replicate 70000 0x78 := not_mem_replicate _ _ _ (by decide)
  have hlong : bufio.MaxScanTokenSize ≤ (List.replicate 70000 0x78).length := by
    rw [List.length_replicate]; decide
  have hshape : ascii "Swap: 1x0 kB\n" ++ List.replicate 70000 0x78 ++ [0x0a]
      = ascii "Swap: 1x0 kB" ++ 0x0a :: (List.replicate 70000 0x78 ++ 0x0a :: []) := by
    have e : ascii "Swap: 1x0 kB\n" = ascii "Swap: 1x0 kB" ++ [0x0a] := by decide
    rw [e]
    simp only [List.append_assoc, List.singleton_append, List.cons_append, List.nil_append]
  have hread : linesRead (ascii "Swap: 1x0 kB\n" ++ List.replicate 70000 0x78 ++ [0x0a])
      = [ascii "Swap: 1x0 kB"] := by
    rw [hshape, linesRead_line _ _ (by decide) (by decide), linesRead_tooLong _ _ hx hlong]
    decide
  constructor
  · exact (C6_readSwapSize_error _ 1 (ascii "Swap: 100 kB\nSwap: 1x0 kB\nSwap: 200 kB\n") rfl
      (by decide) ⟨ascii "Swap: 1x0 kB", by decide, by decide⟩).1
  · exact (C6_readSwapSize_error _ 1
      (ascii "Swap: 1x0 kB\n" ++ List.replicate 70000 0x78 ++ [0x0a]) rfl
      (by rw [hread]; decide)
      ⟨ascii "Swap: 1x0 kB", by rw [hread]; decide, by decide⟩).1

/-- C6 fails as stated on a line too long for the buffer of the scanner: in
the text of the three lines `Swap: 100 kB`, 70000 letters `x`, `Swap: 1x0 kB`,
the two `Swap:` lines are 12 bytes long and the field `1x0` of the last one
does not parse, yet the scanner stops at the second line and `readSwapSize`
returns the partial sum `102400` and no error. -/
theorem C6_counterexample :
    textLines (ascii "Swap: 100 kB\n" ++ List.replicate 70000 0x78 ++ ascii "\nSwap: 1x0 kB\n")
        = [ascii "Swap: 100 kB", List.replicate 70000 0x78, ascii "Swap: 1x0 kB"] ∧
      strings.HasPrefix (List.replicate 70000 0x78) (ascii "Swap:") = false ∧
      8 ≤ (ascii "Swap: 100 kB").length ∧ 8 ≤ (ascii "Swap: 1x0 kB").length ∧
      strconv.Atoi (numericField (ascii "Swap: 1x0 kB")) = none ∧
      readSwapSize
          (fsOfSmaps
            (ascii "Swap: 100 kB\n" ++ List.replicate 70000 0x78 ++ ascii "\nSwap: 1x0 kB\n")) 1
        = Outcome.ok 102400 ∧
      readSwapSize
          (fsOfSmaps
            (ascii "Swap: 100 kB\n" ++ List.replicate 70000 0x78 ++ ascii "\nSwap: 1x0 kB\n")) 1
        ≠ Outcome.error := by
  have hx : (0x0a : Nat) ∉ List.replicate 70000 0x78 := not_mem_replicate _ _ _ (by decide)
  have hcr : (0x0d : Nat) ∉ List.replicate 70000 0x78 := not_mem_replicate _ _ _ (by decide)
  have hlong : bufio.MaxScanTokenSize ≤ (List.replicate 70000 0x78).length := by
    rw [List.length_replicate]; decide
  have hshape : ascii "Swap: 100 kB\n" ++ List.replicate 70000 0x78 ++ ascii "\nSwap: 1x0 kB\n"
      = ascii "Swap: 100 kB" ++ 0x0a :: (List.replicate 70000 0x78
          ++ 0x0a :: (ascii "Swap: 1x0 kB" ++ 0x0a :: [])) :=
    three_lines (ascii "Swap: 100 kB") (List.replicate 70000 0x78) (ascii "Swap: 1x0 kB")
  have hrun : readSwapSize
      (fsOfSmaps
        (ascii "Swap: 100 kB\n" ++ List.replicate 70000 0x78 ++ ascii "\nSwap: 1x0 kB\n")) 1
      = Outcome.ok 102400 := by
    have hread : bufio.Scanner.tokens
        (ascii "Swap: 100 kB\n" ++ List.replicate 70000 0x78 ++ ascii "\nSwap: 1x0 kB\n")
        = [ascii "Swap: 100 kB"] := by
      rw [tokens_eq_linesRead, hshape, linesRead_line _ _ (by decide) (by decide),
        linesRead_tooLong _ _ hx hlong]
      decide
    unfold readSwapSize
    simp only [fsOfSmaps, hread]
    decide
  refine ⟨?_, ?_, by decide, by decide, by decide, hrun, ?_⟩
  · rw [hshape, textLines_line _ _ (by decide), textLines_line _ _ hx,
      textLines_line _ _ (by decide), dropCR_of_no_cr _ hcr]
    have h1 : bufio.dropCR (ascii "Swap: 100 kB") = ascii "Swap: 100 kB" := by decide
    have h2 : bufio.dropCR (ascii "Swap: 1x0 kB") = ascii "Swap: 1x0 kB" := by decide
    have h0 : textLines [] = [] := rfl
    rw [h1, h2, h0]
  · have e : List.replicate 70000 (0x78 : Nat) = 0x78 :: List.replicate 69999 0x78 := rfl
    rw [e]
    rfl
  · rw [hrun]
    exact fun h => Outcome.noConfusion h

/-- C7 (as amended): whenever `readSwapSize` succeeds, the size it returns is
a multiple of 1024 in the range of `int`, and so is the size of every record of
the list `getSwapInfoList` returns.  The size may be negative; it is
non-negative, and 1024 times the sum of the integers read, when none of these
integers is negative and 1024 times their sum is below `2 ^ 63`. -/
theorem C7_size_multiple_of_1024 (fs : ProcFS) (lst : List SwapInfo)
    (h : getSwapInfoList fs = Outcome.ok lst) :
    (∀ pid v, readSwapSize fs pid = Outcome.ok v → (1024 : Int) ∣ v ∧ v % 1024 = 0 ∧ InInt64 v) ∧
      (∀ info ∈ lst, (1024 : Int) ∣ info.size ∧ info.size % 1024 = 0 ∧ InInt64 info.size) ∧
      (∀ pid v content, fs.smaps pid = some content → readSwapSize fs pid = Outcome.ok v →
        (∀ f ∈ parsedFields (bufio.Scanner.tokens content), 0 ≤ f) →
        1024 * (parsedFields (bufio.Scanner.tokens content)).sum < 2 ^ 63 →
        0 ≤ v ∧ v = 1024 * (parsedFields (bufio.Scanner.tokens content)).sum) := by
  have hread : ∀ pid v, readSwapSize fs pid = Outcome.ok v →
      (1024 : Int) ∣ v ∧ v % 1024 = 0 ∧ InInt64 v := by
    intro pid v hv
    unfold readSwapSize at hv
    cases hs : fs.smaps pid with
    | none => rw [hs] at hv; exact absurd hv (by simp)
    | some content =>
      rw [hs] at hv
      obtain ⟨h1, h2⟩ := readSwapSizeLoop_multiple (bufio.Scanner.tokens content) 0 v hv
      exact ⟨h1, Int.emod_eq_zero_of_dvd h1, h2⟩
  refine ⟨hread, ?_, ?_⟩
  · unfold getSwapInfoList at h
    cases hd : fs.dir with
    | none => rw [hd] at h; exact absurd h (by simp)
    | some names =>
      rw [hd] at h
      exact getSwapInfoListLoop_forall
        (fun info => (1024 : Int) ∣ info.size ∧ info.size % 1024 = 0 ∧ InInt64 info.size)
        (readComm fs) (readSwapSize fs) (fun pid _ size _ hs => hread pid size hs) names [] lst
        (by simp) h
  · intro pid v content hfile hv hnn hlt
    unfold readSwapSize at hv
    rw [hfile] at hv
    have hval := readSwapSizeLoop_value (bufio.Scanner.tokens content) 0 v hv
    have hsum : 0 ≤ (parsedFields (bufio.Scanner.tokens content)).sum := List.sum_nonneg hnn
    have hin : InInt64 ((0 + (parsedFields (bufio.Scanner.tokens content)).sum) * 1024) := by
      unfold InInt64
      constructor <;> omega
    rw [wrap64_of_inInt64 _ hin] at hval
    constructor <;> omega

/-- Instance of C7: one process with the lines `Swap: 100 kB` and `Swap: 200 kB`
gives one record, of size `307200 = 300 * 1024`. -/
theorem C7_size_multiple_of_1024_witness :
    getSwapInfoList (fsOfSmaps (ascii "Swap: 100 kB\nSwap: 200 kB\n"))
        = Outcome.ok [⟨1, ascii "init", 307200⟩] ∧
      ((1024 : Int) ∣ 307200 ∧ (307200 : Int) % 1024 = 0 ∧ InInt64 307200) := by
  have hrun : getSwapInfoList (fsOfSmaps (ascii "Swap: 100 kB\nSwap: 200 kB\n"))
      = Outcome.ok [⟨1, ascii "init", 307200⟩] := by decide
  exact ⟨hrun, (C7_size_multiple_of_1024 _ _ hrun).2.1 ⟨1, ascii "init", 307200⟩
    (List.mem_singleton.mpr rfl)⟩

/-- C7 fails as stated: `strconv.Atoi` accepts a sign, so the line
`Swap: -1 kB` makes `readSwapSize` return `-1024`, and `getSwapInfoList`
produces a record of negative size. -/
theorem C7_counterexample :
    readSwapSize (fsOfSmaps (ascii "Swap: -1 kB\n")) 1 = Outcome.ok (-1024) ∧
      getSwapInfoList (fsOfSmaps (ascii "Swap: -1 kB\n"))
        = Outcome.ok [⟨1, ascii "init", -1024⟩] ∧
      ¬ ((0 : Int) ≤ -1024) := by
  refine ⟨by decide, by decide, by decide⟩

/-- C8 (as amended): an entry of the process listing is a candidate pid exactly
when `strconv.Atoi` parses its name, that is, when the name is a decimal
numeral, possibly signed, for a value of type `int`: every record carries a pid
read from an entry name, and an entry whose name does not parse (such as `self`
or the empty name) changes nothing, as if it were absent from the listing. -/
theorem C8_unparsed_names_skipped (fs : ProcFS) (names : List GoString)
    (hdir : fs.dir = some names) :
    (∀ lst, getSwapInfoList fs = Outcome.ok lst →
        ∀ info ∈ lst, ∃ name ∈ names, strconv.Atoi name = some info.pid) ∧
      (∀ (pre post : List GoString) (name : GoString), names = pre ++ name :: post →
        strconv.Atoi name = none →
        getSwapInfoList fs
            = getSwapInfoList ⟨some (pre ++ post), fs.cmdline, fs.smaps⟩ ∧
          ∀ S : SortSlice,
            Swapview S fs = Swapview S ⟨some (pre ++ post), fs.cmdline, fs.smaps⟩) ∧
      (∀ (name : GoString) (v : Int),
        strconv.Atoi name = some v ↔ IsNumeral name v ∧ InInt64 v) ∧
      strconv.Atoi (ascii "self") = none ∧ strconv.Atoi [] = none := by
  refine ⟨?_, ?_, atoi_some_iff, by decide, by decide⟩
  · intro lst h info hinfo
    unfold getSwapInfoList at h
    rw [hdir] at h
    rcases getSwapInfoListLoop_pid _ _ names [] lst h info hinfo with h1 | h1
    · simp at h1
    · exact h1
  · intro pre post name hnames hname
    have hlist : getSwapInfoList fs
        = getSwapInfoList ⟨some (pre ++ post), fs.cmdline, fs.smaps⟩ := by
      unfold getSwapInfoList
      rw [hdir, hnames]
      exact getSwapInfoListLoop_skip _ _ name hname pre post []
    refine ⟨hlist, fun S => ?_⟩
    unfold Swapview
    rw [hlist]

/-- Instance of C8: among the entries `self`, the empty name, `1` and `cpuinfo`
only `1` gives a record. -/
theorem C8_unparsed_names_skipped_witness :
    getSwapInfoList (fsOfDir [ascii "self", [], ascii "1", ascii "cpuinfo"])
        = getSwapInfoList (fsOfDir [ascii "self", [], ascii "1"]) ∧
      getSwapInfoList (fsOfDir [ascii "self", [], ascii "1", ascii "cpuinfo"])
        = Outcome.ok [⟨1, ascii "init", 1024⟩] := by
  have h := (C8_unparsed_names_skipped (fsOfDir [ascii "self", [], ascii "1", ascii "cpuinfo"])
    [ascii "self", [], ascii "1", ascii "cpuinfo"] rfl).2.1
    [ascii "self", [], ascii "1"] [] (ascii "cpuinfo") rfl (by decide)
  exact ⟨h.1, by decide⟩

/-- C8 fails as stated: the name `-1` is not a non-negative integer, yet
`strconv.Atoi` parses it and the entry gives a record, with pid `-1`. -/
theorem C8_counterexample :
    strconv.Atoi (ascii "-1") = some (-1) ∧
      getSwapInfoList (fsOfDir [ascii "-1"]) = Outcome.ok [⟨-1, ascii "init", 1024⟩] := by
  refine ⟨by decide, by decide⟩

/-- C9: for every list of records, `Swapview` prints, after the header and
before the total line, one row for each record of the sorted list whose size is
not zero; these records are, as a multiset, exactly the records of the input
whose size is not zero, and their sizes are non-decreasing.  For records of
sizes 0, 1024 and 1048576 the records printed are the second, then the third. -/
theorem C9_rows_sorted_nonzero (S : SortSlice) (lst : List SwapInfo) :
    (∀ fs : ProcFS, getSwapInfoList fs = Outcome.ok lst →
        Swapview S fs = SwapviewReport S lst) ∧
      (∃ (rows : List GoString) (tot : GoString),
        SwapviewReport S lst = Outcome.ok (headerLine :: rows ++ [tot]) ∧
        List.Forall₂ IsRowOf ((S.sort lst).filter isPrinted) rows ∧
        rows.length = (lst.filter fun i => decide (i.size ≠ 0)).length) ∧
      ((S.sort lst).filter isPrinted).Perm (lst.filter fun i => decide (i.size ≠ 0)) ∧
      (∀ i ∈ (S.sort lst).filter isPrinted, i.size ≠ 0) ∧
      ((S.sort lst).filter isPrinted).Pairwise (fun a b => a.size ≤ b.size) ∧
      ∀ a b c : SwapInfo, a.size = 0 → b.size = 1024 → c.size = 1048576 →
        lst.Perm [a, b, c] → (S.sort lst).filter isPrinted = [b, c] := by
  obtain ⟨rows, sz, h1, h2, _⟩ := SwapviewReport_spec S lst
  obtain ⟨hperm, hsorted⟩ := sorted_filter_isPrinted S lst
  refine ⟨fun fs hfs => Swapview_of_list S fs lst hfs,
    ⟨rows, totalLine sz, h1, h2, ?_⟩, hperm, ?_, hsorted, ?_⟩
  · rw [← h2.length_eq]
    exact hperm.length_eq
  · intro i hi
    have := (List.mem_filter.mp hi).2
    simpa [isPrinted] using this
  · intro a b c ha hb hc hl
    exact sorted_filter_three S lst a b c ha hb hc hl

/-- C10 (as amended): the last string `Swapview` prints is `Total: ` followed
by `filesize(S)` padded on the left with spaces to width 10, where `S` is the
sum of the sizes of the printed rows reduced to the range of `int`; the sum of
the sizes of the printed rows equals the sum of the sizes of all records, so
`S` is that sum whenever it is in the range of `int`, and for sizes 0, 1024 and
1048576 the total shown is `filesize(1024 + 1048576)`. -/
theorem C10_total_line (S : SortSlice) (lst : List SwapInfo) :
    ∃ (rows : List GoString) (sz : GoString),
      (∀ fs : ProcFS, getSwapInfoList fs = Outcome.ok lst →
        Swapview S fs
          = Outcome.ok (headerLine :: rows ++ [ascii "Total: " ++ padLeft 10 sz ++ ascii "\n"])) ∧
      SwapviewReport S lst
        = Outcome.ok (headerLine :: rows ++ [ascii "Total: " ++ padLeft 10 sz ++ ascii "\n"]) ∧
      (headerLine :: rows ++ [ascii "Total: " ++ padLeft 10 sz ++ ascii "\n"]).getLast?
        = some (ascii "Total: " ++ padLeft 10 sz ++ ascii "\n") ∧
      padLeft 10 sz = List.replicate (10 - sz.length) 0x20 ++ sz ∧
      filesize (wrap64 (((S.sort lst).filter isPrinted).map fun i => i.size).sum)
        = Outcome.ok sz ∧
      (((S.sort lst).filter isPrinted).map fun i => i.size).sum
        = (lst.map fun i => i.size).sum ∧
      (InInt64 (lst.map fun i => i.size).sum →
        filesize (lst.map fun i => i.size).sum = Outcome.ok sz) ∧
      ∀ a b c : SwapInfo, a.size = 0 → b.size = 1024 → c.size = 1048576 →
        lst.Perm [a, b, c] → filesize (1024 + 1048576) = Outcome.ok sz := by
  obtain ⟨rows, sz, h1, _, h3⟩ := SwapviewReport_spec S lst
  have hsum : (((S.sort lst).filter isPrinted).map fun i => i.size).sum
      = (lst.map fun i => i.size).sum := by
    rw [sum_filter_isPrinted]
    exact ((S.perm lst).map _).sum_eq
  have hin : InInt64 (lst.map fun i => i.size).sum →
      filesize (lst.map fun i => i.size).sum = Outcome.ok sz := by
    intro hr
    rw [hsum, wrap64_of_inInt64 _ hr] at h3
    exact h3
  refine ⟨rows, sz, fun fs hfs => (Swapview_of_list S fs lst hfs).trans h1, h1,
    List.getLast?_concat _, rfl, h3, hsum, hin, ?_⟩
  · intro a b c ha hb hc hl
    have hs : (lst.map fun i => i.size).sum = 1024 + 1048576 := by
      rw [(hl.map _).sum_eq]
      simp [ha, hb, hc]
    rw [hs] at hin
    exact hin (by unfold InInt64; norm_num)

/-- C10 fails as stated when the sum leaves the range of `int`: for two
records of size `2 ^ 62` the running total wraps around and the total line shows
`-9223372036854775808B`, not `filesize` of the sum. -/
theorem C10_counterexample :
    SwapviewReport insertionSortSlice
        [⟨1, ascii "a", 4611686018427387904⟩, ⟨2, ascii "b", 4611686018427387904⟩]
      = Outcome.ok [ascii "    PID      SWAP COMMAND\n", ascii "      1 4194304.0TiB a\n",
          ascii "      2 4194304.0TiB b\n", ascii "Total: -9223372036854775808B\n"] ∧
      filesize (4611686018427387904 + 4611686018427387904)
        = Outcome.ok (ascii "8388608.0TiB") := by
  have hsort : insertionSortSlice.sort
      [⟨1, ascii "a", 4611686018427387904⟩, ⟨2, ascii "b", 4611686018427387904⟩]
      = [⟨1, ascii "a", 4611686018427387904⟩, ⟨2, ascii "b", 4611686018427387904⟩] := by
    decide
  have hr1 : round53 4611686018427387904 = 4611686018427387904 := by decide
  have hr2 : round53 (-9223372036854775808) = -9223372036854775808 := by decide
  have hr3 : round53 (4611686018427387904 + 4611686018427387904) = 9223372036854775808 := by
    decide
  have hf1 : filesize 4611686018427387904 = Outcome.ok (ascii "4194304.0TiB") := by
    simp [filesize, filesizeLoop, Float64.ofInt, Float64.gtInt, Float64.div1024, hr1]
    decide
  have hf2 : filesize (-9223372036854775808) = Outcome.ok (ascii "-9223372036854775808B") := by
    simp [filesize, filesizeLoop, Float64.ofInt, Float64.gtInt, Float64.div1024, hr2]
    decide
  have hf3 : filesize (4611686018427387904 + 4611686018427387904)
      = Outcome.ok (ascii "8388608.0TiB") := by
    simp [filesize, filesizeLoop, Float64.ofInt, Float64.gtInt, Float64.div1024, hr3]
    decide
  have hw1 : wrap64 4611686018427387904 = 4611686018427387904 := by decide
  have hw2 : wrap64 9223372036854775808 = -9223372036854775808 := by decide
  refine ⟨?_, hf3⟩
  simp [SwapviewReport, hsort, SwapviewLoop, hf1, hf2, hw1, hw2]
  decide

/-- C11: with the two per-process reads taken as functions from the pid to
success or error, the list `getSwapInfoList` builds is exactly, in the order of
the directory entries, one record `(pid, comm, size)` for each entry whose name
`strconv.Atoi` parses as a pid and for which both reads succeed, with the values
the reads returned; an entry for which a read fails gives no record, and no
error comes out. -/
theorem C11_records_of_successful_reads (rc : Int → Option GoString)
    (rs : Int → Option Int) (names : List GoString) :
    getSwapInfoListLoop (fun pid => Outcome.ofOption (rc pid))
        (fun pid => Outcome.ofOption (rs pid)) names []
      = Outcome.ok (names.filterMap (recordOf rc rs)) ∧
      (∀ (name : GoString) (info : SwapInfo), recordOf rc rs name = some info ↔
        ∃ pid comm size, strconv.Atoi name = some pid ∧ rc pid = some comm ∧
          rs pid = some size ∧ info = ⟨pid, comm, size⟩) ∧
      (∀ fs : ProcFS, fs.dir = some names →
        (∀ pid, readComm fs pid = Outcome.ofOption (rc pid)) →
        (∀ pid, readSwapSize fs pid = Outcome.ofOption (rs pid)) →
        getSwapInfoList fs = Outcome.ok (names.filterMap (recordOf rc rs))) := by
  have hloop := getSwapInfoListLoop_filterMap rc rs names []
  rw [List.nil_append] at hloop
  refine ⟨hloop, recordOf_some_iff rc rs, ?_⟩
  intro fs hdir hc hs
  unfold getSwapInfoList
  rw [hdir]
  have e1 : readComm fs = fun pid => Outcome.ofOption (rc pid) := funext hc
  have e2 : readSwapSize fs = fun pid => Outcome.ofOption (rs pid) := funext hs
  simp only [e1, e2]
  exact hloop

/-- Instances of C11: of the entries `1`, `2`, `self`, `3`, `4`, where the
command line of pid 2 and the swap size of pid 3 cannot be read, the list holds
the records of pid 1 and pid 4, in this order; and the list built on the tree
`fixtureFS`, whose reads of the pids 1, 2, 3 succeed. -/
theorem C11_records_of_successful_reads_witness :
    getSwapInfoListLoop
        (fun pid => Outcome.ofOption (if pid = 2 then none else some (ascii "sh")))
        (fun pid => Outcome.ofOption (if pid = 3 then none else some (1024 * pid)))
        [ascii "1", ascii "2", ascii "self", ascii "3", ascii "4"] []
      = Outcome.ok [⟨1, ascii "sh", 1024⟩, ⟨4, ascii "sh", 4096⟩] ∧
      getSwapInfoList fixtureFS
        = Outcome.ok [⟨1, ascii "init", 0⟩, ⟨2, ascii "sh -c ls", 1024⟩,
            ⟨3, ascii "top", 1048576⟩] := by
  constructor
  · have h := (C11_records_of_successful_reads
      (fun pid => if pid = 2 then none else some (ascii "sh"))
      (fun pid => if pid = 3 then none else some (1024 * pid))
      [ascii "1", ascii "2", ascii "self", ascii "3", ascii "4"]).1
    rw [h]
    decide
  · have h := (C11_records_of_successful_reads
      (fun pid => if pid = 1 then some (ascii "init") else if pid = 2 then some (ascii "sh -c ls")
        else if pid = 3 then some (ascii "top") else none)
      (fun pid => if pid = 1 then some 0 else if pid = 2 then some 1024
        else if pid = 3 then some 1048576 else none)
      [ascii "1", ascii "2", ascii "3", ascii "self"]).2.2 fixtureFS rfl
      (by
        intro pid
        by_cases h1 : pid = 1
        · subst h1; decide
        · by_cases h2 : pid = 2
          · subst h2; decide
          · by_cases h3 : pid = 3
            · subst h3; decide
            · simp [readComm, fixtureFS, h1, h2, h3, Outcome.ofOption])
      (by
        intro pid
        by_cases h1 : pid = 1
        · subst h1; decide
        · by_cases h2 : pid = 2
          · subst h2; decide
          · by_cases h3 : pid = 3
            · subst h3; decide
            · simp [readSwapSize, fixtureFS, h1, h2, h3, Outcome.ofOption])
    rw [h]
    decide

/-- C12: `sanitizeComm raw` is the empty string if and only if `raw` is empty
or holds only NUL bytes; empty content gives the empty label (also through
`readComm`), and content with at least one byte that is not NUL gives a label
of length `> 0`. -/
theorem C12_sanitizeComm_empty_iff (raw : GoString) :
    (sanitizeComm raw = [] ↔ (raw = [] ∨ ∀ c ∈ raw, c = 0x00)) ∧
      sanitizeComm [] = [] ∧
      (∀ (fs : ProcFS) (pid : Int), fs.cmdline pid = some [] →
        readComm fs pid = Outcome.ok []) ∧
      ((∃ c ∈ raw, c ≠ 0x00) → 0 < (sanitizeComm raw).length) ∧
      sanitizeComm [0x00, 0x00, 0x00] = [] ∧
      sanitizeComm (ascii "\x00a\x00") = ascii " a" := by
  have hiff : sanitizeComm raw = [] ↔ ∀ c ∈ raw, c = 0x00 := by
    rw [sanitizeComm_eq_map, List.map_eq_nil_iff]
    exact trimRight_nul_eq_nil_iff raw
  refine ⟨?_, by decide, ?_, ?_, by decide, by decide⟩
  · rw [hiff]
    constructor
    · exact fun h => Or.inr h
    · rintro (h | h)
      · subst h
        simp
      · exact h
  · intro fs pid hfile
    unfold readComm
    rw [hfile]
    rfl
  · rintro ⟨c, hc, hne⟩
    apply List.length_pos_of_ne_nil
    intro he
    exact hne (hiff.mp he c hc)

/-- C13: the first string `Swapview` prints is the header, `PID` right-aligned
to width 7, a space, `SWAP` right-aligned to width 9, a space, `COMMAND` and a
newline; the row of a record is its pid in decimal right-aligned to width 7, a
space, `filesize(size)` right-aligned to width 9, a space, the command label as
it is, and a newline.  The padded strings are ASCII, so their width in
characters is their number of bytes. -/
theorem C13_header_and_rows (S : SortSlice) (lst : List SwapInfo) :
    ∃ (rows : List GoString) (sz : GoString),
      SwapviewReport S lst = Outcome.ok (headerLine :: rows ++ [totalLine sz]) ∧
      (headerLine :: rows ++ [totalLine sz]).head? = some headerLine ∧
      headerLine = padLeft 7 (ascii "PID") ++ ascii " " ++ padLeft 9 (ascii "SWAP") ++ ascii " "
        ++ ascii "COMMAND" ++ ascii "\n" ∧
      headerLine = ascii "    PID      SWAP COMMAND\n" ∧
      List.Forall₂
        (fun info row => ∃ fsz : GoString, filesize info.size = Outcome.ok fsz ∧
          row = padLeft 7 (fmtInt info.pid) ++ ascii " " ++ padLeft 9 fsz ++ ascii " "
            ++ info.comm ++ ascii "\n" ∧
          IsAscii (fmtInt info.pid) ∧ IsAscii fsz ∧ row.getLast? = some 0x0a)
        ((S.sort lst).filter isPrinted) rows ∧
      (∀ (w : Nat) (s : GoString),
        padLeft w s = List.replicate (w - s.length) 0x20 ++ s ∧
          (padLeft w s).length = max w s.length) := by
  obtain ⟨rows, sz, h1, h2, _⟩ := SwapviewReport_spec S lst
  refine ⟨rows, sz, h1, rfl, rfl, by decide, ?_, fun w s => ⟨rfl, padLeft_length w s⟩⟩
  refine h2.imp ?_
  rintro info row ⟨fsz, hf, hrow⟩
  refine ⟨fsz, hf, hrow, fmtInt_ascii info.pid, filesize_ascii info.size fsz hf, ?_⟩
  rw [hrow]
  unfold rowLine
  exact List.getLast?_concat _

/-- C14: for every integer size, of any sign and magnitude, the loop of
`filesize` ends after at most 4 runs of its body, with a unit index equal to
the number of runs, hence in `0..4`; on the branch `unit ≠ 0` the index
`unit - 1` is inside the table `UNIT` of 4 letters, so `filesize` returns a
string, which is the `%d` rendering followed by `B` or the `%.1f` rendering
followed by `KiB`, `MiB`, `GiB` or `TiB`; sizes beyond 1100 TiB are reported in
`TiB`, and every size `≤ 0` is rendered as `<size>B`. -/
theorem C14_filesize_loop_bounded (size : Int) :
    (∃ n : Nat, n ≤ 4 ∧
        (∀ m : Nat, m < n →
          filesizeGuard (filesizeBody^[m] (Float64.ofInt size, 0)) = true) ∧
        filesizeGuard (filesizeBody^[n] (Float64.ofInt size, 0)) = false ∧
        filesizeLoop (Float64.ofInt size) 0 = filesizeBody^[n] (Float64.ofInt size, 0) ∧
        (filesizeLoop (Float64.ofInt size) 0).2 = n) ∧
      (filesizeLoop (Float64.ofInt size) 0).2 ≤ 4 ∧
      ((filesizeLoop (Float64.ofInt size) 0).2 ≠ 0 →
        (filesizeLoop (Float64.ofInt size) 0).2 - 1 < UNIT.length) ∧
      (∃ sz : GoString, filesize size = Outcome.ok sz) ∧
      (((filesizeLoop (Float64.ofInt size) 0).2 = 0 ∧
          filesize size = Outcome.ok (fmtInt size ++ ascii "B")) ∨
        ((filesizeLoop (Float64.ofInt size) 0).2 = 1 ∧
          filesize size
            = Outcome.ok ((filesizeLoop (Float64.ofInt size) 0).1.fmtF1 ++ ascii "KiB")) ∨
        ((filesizeLoop (Float64.ofInt size) 0).2 = 2 ∧
          filesize size
            = Outcome.ok ((filesizeLoop (Float64.ofInt size) 0).1.fmtF1 ++ ascii "MiB")) ∨
        ((filesizeLoop (Float64.ofInt size) 0).2 = 3 ∧
          filesize size
            = Outcome.ok ((filesizeLoop (Float64.ofInt size) 0).1.fmtF1 ++ ascii "GiB")) ∨
        ((filesizeLoop (Float64.ofInt size) 0).2 = 4 ∧
          filesize size
            = Outcome.ok ((filesizeLoop (Float64.ofInt size) 0).1.fmtF1 ++ ascii "TiB"))) ∧
      (1100 * 1024 ^ 4 < size →
        filesize size
          = Outcome.ok ((filesizeLoop (Float64.ofInt size) 0).1.fmtF1 ++ ascii "TiB")) ∧
      (size ≤ 0 → filesize size = Outcome.ok (fmtInt size ++ ascii "B")) := by
  have hle := filesizeLoop_unit_le 4 (Float64.ofInt size) 0 rfl (by norm_num)
  obtain ⟨n, hn, hbefore, hafter, hloop, hunit⟩ := filesizeLoop_iterate 4 (Float64.ofInt size) 0 rfl
  refine ⟨⟨n, hn, hbefore, hafter, hloop, by rw [hunit, Nat.zero_add]⟩, hle, ?_, filesize_ok size,
    filesize_cases size, ?_, ?_⟩
  · intro h0
    simp only [UNIT, List.length_cons, List.length_nil]
    omega
  · intro hbig
    have h4 := filesizeLoop_huge size hbig
    rcases filesize_cases size with h | h | h | h | h
    · omega
    · omega
    · omega
    · omega
    · exact h.2
  · intro hneg
    have h0 : (filesizeLoop (Float64.ofInt size) 0).2 = 0 := by
      rw [filesizeLoop_nonpos size hneg]
    rcases filesize_cases size with h | h | h | h | h
    · exact h.2
    · omega
    · omega
    · omega
    · omega

/-- Instances of C14: a negative size, the least `int`, zero, and `2 ^ 62`
bytes, which is beyond 1100 TiB. -/
theorem C14_filesize_loop_bounded_witness :
    filesize (-5) = Outcome.ok (ascii "-5B") ∧
      filesize (-9223372036854775808) = Outcome.ok (ascii "-9223372036854775808B") ∧
      filesize 0 = Outcome.ok (ascii "0B") ∧
      ∃ v : GoString, filesize 4611686018427387904 = Outcome.ok (v ++ ascii "TiB") :=
  ⟨(C14_filesize_loop_bounded (-5)).2.2.2.2.2.2 (by decide),
    (C14_filesize_loop_bounded (-9223372036854775808)).2.2.2.2.2.2 (by decide),
    (C14_filesize_loop_bounded 0).2.2.2.2.2.2 (by decide),
    ⟨_, (C14_filesize_loop_bounded 4611686018427387904).2.2.2.2.2.1 (by decide)⟩⟩

/-- C15: for every integer `n` with `0 ≤ n ≤ 1100 * 1024 ^ 4` the string
`filesize(n)` has at most 9 characters (it is ASCII, one byte a character), so
padded to the width 9 of the `SWAP` column it has exactly 9 characters, and
padded to the width 10 of the total field exactly 10. -/
theorem C15_filesize_width (n : Int) (h0 : 0 ≤ n) (h1 : n ≤ 1100 * 1024 ^ 4) :
    ∃ sz : GoString, filesize n = Outcome.ok sz ∧ sz.length ≤ 9 ∧ IsAscii sz ∧
      (padLeft 9 sz).length = 9 ∧ (padLeft 10 sz).length = 10 := by
  obtain ⟨sz, hsz⟩ := filesize_ok n
  have hlen := filesize_length n h0 h1 sz hsz
  refine ⟨sz, hsz, hlen, filesize_ascii n sz hsz, ?_, ?_⟩
  · rw [padLeft_length]; omega
  · rw [padLeft_length]; omega

/-- Instances of C15 at the upper end of the range and in the dead zone of the
unit `K`: `1100.0TiB` and `1024.0KiB`, 9 characters each. -/
theorem C15_filesize_width_witness :
    (∃ sz : GoString, filesize (1100 * 1024 ^ 4) = Outcome.ok sz ∧ sz.length ≤ 9 ∧ IsAscii sz ∧
        (padLeft 9 sz).length = 9 ∧ (padLeft 10 sz).length = 10) ∧
      filesize (1100 * 1024 ^ 4) = Outcome.ok (ascii "1100.0TiB") ∧
      filesize 1048576 = Outcome.ok (ascii "1024.0KiB") ∧
      (ascii "1100.0TiB").length = 9 := by
  refine ⟨C15_filesize_width (1100 * 1024 ^ 4) (by decide) (by decide), ?_, ?_, by decide⟩
  · have hr : round53 (1100 * 1024 ^ 4) = 1209462790553600 := by decide
    simp [filesize, filesizeLoop, Float64.ofInt, Float64.gtInt, Float64.div1024, hr]
    decide
  · have hr : round53 1048576 = 1048576 := by decide
    simp [filesize, filesizeLoop, Float64.ofInt, Float64.gtInt, Float64.div1024, hr]
    decide

/-- C16: the result of `sanitizeComm` holds no NUL byte, and `sanitizeComm` is
idempotent: applied to its own result it returns that result unchanged. -/
theorem C16_sanitizeComm_idempotent (raw : GoString) :
    (∀ c ∈ sanitizeComm raw, c ≠ 0x00) ∧
      sanitizeComm (sanitizeComm raw) = sanitizeComm raw ∧
      sanitizeComm (sanitizeComm (ascii "a\x00\x00b\x00")) = ascii "a  b" := by
  exact ⟨sanitizeComm_no_nul raw, sanitizeComm_of_no_nul _ (sanitizeComm_no_nul raw), by decide⟩

end GoSwapview
